import Mathlib

/-!
Verification development for the Graphwise ingest-to-answer pipeline engine.

The Lean definitions below are shallow embeddings of the Python sources:
  * `services/workers/job_runner.py`   (job engine, archive sandbox, embed step)
  * `services/retrieval_service/app/main.py` (question embedder, hybrid retriever)
  * `backend/shared/codegraph_shared/openai_utils.py` (shared embed utility)
  * `backend/shared/codegraph_shared/kg_normalize.py` (KG payload normalization)
  * `backend/services/workers/parse_graph.py` (structural extractor)

HTTP calls are modelled by an oracle `Nat → AttemptOutcome` giving the outcome
the network would deliver on each attempt; filesystem state is modelled by an
explicit record; floats are modelled as rationals; SHA-256 hashing is modelled
by an arbitrary digest function `hash : String → String` passed explicitly
(the theorems hold for every digest function, hence for SHA-256).
-/

namespace Graphwise

/-! ## Python string primitives

Character-level implementations of the Python string operations the sources
use (`strip`, `lower`, `split`, `rstrip`, `replace(..., 1)`), written by
structural recursion over the character list so that concrete witnesses
evaluate inside the kernel. -/

/-- Python `s.strip()`. -/
def pyStrip (s : String) : String :=
  ⟨((s.data.dropWhile Char.isWhitespace).reverse.dropWhile Char.isWhitespace).reverse⟩

/-- Python `s.lower()` (ASCII; the sources only compare ASCII keywords). -/
def pyToLower (s : String) : String :=
  ⟨s.data.map Char.toLower⟩

/-- Splitting on a single separator character, keeping empty tokens
(Python `s.split(sep)` for a one-character separator). -/
def splitCharGo (sep : Char) : List Char → List Char → List (List Char)
  | [], cur => [cur.reverse]
  | c :: rest, cur =>
    if c = sep then cur.reverse :: splitCharGo sep rest []
    else splitCharGo sep rest (c :: cur)

/-- Python `s.split(sep)` for a one-character separator. -/
def pySplitChar (sep : Char) (s : String) : List String :=
  (splitCharGo sep s.data []).map String.mk

/-- Whitespace tokenization: Python `s.split()` (empty tokens dropped). -/
def splitWsGo : List Char → List Char → List (List Char)
  | [], cur => [cur.reverse]
  | c :: rest, cur =>
    if c.isWhitespace then cur.reverse :: splitWsGo rest []
    else splitWsGo rest (c :: cur)

/-- Python `s.split()`. -/
def pySplitWs (s : String) : List String :=
  ((splitWsGo s.data []).map String.mk).filter (fun t => t ≠ "")

/-- Python `s.rstrip(chars)` for a character predicate. -/
def pyRstrip (p : Char → Bool) (s : String) : String :=
  ⟨(s.data.reverse.dropWhile p).reverse⟩

/-- Python `s.strip(chars)` for a character predicate. -/
def pyStripChars (p : Char → Bool) (s : String) : String :=
  ⟨((s.data.dropWhile p).reverse.dropWhile p).reverse⟩

/-- Removal of the first occurrence of `pat` (Python `s.replace(pat, "", 1)`). -/
def removeFirstOcc (pat : List Char) : List Char → List Char
  | [] => []
  | c :: rest =>
    if pat.isPrefixOf (c :: rest) then (c :: rest).drop pat.length
    else c :: removeFirstOcc pat rest

/-- Python `s.replace(pat, "", 1)`. -/
def pyReplaceFirst (s pat : String) : String :=
  if pat = "" then s else ⟨removeFirstOcc pat.data s.data⟩

/-! ## §4.D Embedding clients: outcomes of a single HTTP attempt -/

/-- What a single HTTP attempt against an embedding endpoint can deliver, as
distinguished by the client code: a 2xx response with a well-formed body, a 2xx
response whose body is malformed JSON, an HTTP error status with a detail body,
or a network error / timeout (`URLError`, `TimeoutError`, `socket.timeout`). -/
inductive AttemptOutcome where
  | ok : AttemptOutcome
  | badJson : AttemptOutcome
  | httpErr (status : Nat) (detail : String) : AttemptOutcome
  | netErr (reason : String) : AttemptOutcome
deriving DecidableEq, Repr

/-- `TRANSIENT_EMBED_HTTP_STATUSES` from `services/workers/job_runner.py`. -/
def TRANSIENT_EMBED_HTTP_STATUSES : List Nat := [502, 503, 504]

/-- `OPENAI_EMBED_RETRYABLE_STATUS_CODES` from `retrieval_service/app/main.py`;
also `_RETRYABLE_STATUS_CODES` from `codegraph_shared/openai_utils.py`. -/
def OPENAI_EMBED_RETRYABLE_STATUS_CODES : List Nat := [429, 500, 502, 503, 504]

/-- Structured failure of the pipeline embed step (`EmbedStepFailed` in
`job_runner.py`): attempts used, last HTTP status (none = network/timeout),
last detail text, and whether the failure was the non-retryable branch. -/
structure EmbedStepError where
  attemptsUsed : Nat
  lastStatus : Option Nat
  detail : String
  nonRetryable : Bool
deriving DecidableEq, Repr

/-- Renders `last_http_status={...}` as in the `_run_embed` f-strings. -/
def statusText : Option Nat → String
  | some s => toString s
  | none => "timeout_or_network_error"

/-- Message carried by the raised `EmbedStepFailed` exception in `_run_embed`. -/
def EmbedStepError.message (e : EmbedStepError) : String :=
  (if e.nonRetryable then "embed step failed with non-retryable upstream response: "
    else "embed step failed after retries: ") ++
  ("attempts_used=" ++ toString e.attemptsUsed ++ ", last_http_status=" ++
    statusText e.lastStatus ++ ", last_response_detail=" ++
    (if e.detail = "" then (if e.nonRetryable then "empty response body" else "no detail")
      else e.detail))

/-- One iteration state of the retry loop in `_run_embed`
(`for attempt in range(1, PIPELINE_EMBED_MAX_RETRIES + 1)`).
`remaining` is the number of loop iterations left (`maxRetries - attempt + 1`
at the call sites); it only drives termination, the `attempt < maxRetries`
guards below are the ones from the source. The fuel-exhausted case mirrors the
raise after the loop. The success path returns without parsing the body
(`_run_embed` never JSON-decodes the response), so `badJson` succeeds here. -/
def pipelineEmbedGo (maxRetries : Nat) (oracle : Nat → AttemptOutcome) :
    Nat → Nat → Option Nat → String → Except EmbedStepError Unit
  | 0, _, lastStatus, lastDetail =>
      .error ⟨maxRetries, lastStatus, lastDetail, false⟩
  | remaining + 1, attempt, _, _ =>
    match oracle attempt with
    | .ok => .ok ()
    | .badJson => .ok ()
    | .httpErr status detail =>
        if status ∈ TRANSIENT_EMBED_HTTP_STATUSES then
          if attempt < maxRetries then
            pipelineEmbedGo maxRetries oracle remaining (attempt + 1) (some status) detail
          else .error ⟨maxRetries, some status, detail, false⟩
        else .error ⟨attempt, some status, detail, true⟩
    | .netErr reason =>
        if attempt < maxRetries then
          pipelineEmbedGo maxRetries oracle remaining (attempt + 1) none reason
        else .error ⟨maxRetries, none, reason, false⟩

/-- `_run_embed` from `services/workers/job_runner.py` (the retry loop; the
`ENABLE_EMBEDDINGS` short-circuit and request construction are elided). -/
def runEmbedPipeline (maxRetries : Nat) (oracle : Nat → AttemptOutcome) :
    Except EmbedStepError Unit :=
  pipelineEmbedGo maxRetries oracle maxRetries 1 none ""

/-- Failure surface of `_openai_embed` in `retrieval_service/app/main.py`
(each constructor is one of its `raise HTTPException` sites). -/
inductive RetrievalEmbedError where
  | unauthorized (detail : String)
  | rejected (status : Nat) (detail : String)
  | failedAfter (attempts status : Nat) (detail : String)
  | unavailable (attempts : Nat) (reason : String)
  | invalidJson
  | noData (attempts : Nat) (lastError : String)
deriving DecidableEq, Repr

/-- The retry loop of `_openai_embed` in `retrieval_service/app/main.py`.
On malformed JSON it raises immediately (no retry); 401 raises as
unauthorized; other 4xx except 429 raise as rejected; statuses outside
`OPENAI_EMBED_RETRYABLE_STATUS_CODES`, or a retryable status on the last
attempt, raise `failedAfter`; network errors on the last attempt raise
`unavailable`.  The fuel-exhausted case mirrors the `data is None` check
after the loop.  A well-formed success is collapsed to `.ok` (the subsequent
shape validation of the embedding payload is outside these claims). -/
def retrievalEmbedGo (maxRetries : Nat) (oracle : Nat → AttemptOutcome) :
    Nat → Nat → String → Except RetrievalEmbedError Unit
  | 0, _, lastError => .error (.noData maxRetries lastError)
  | remaining + 1, attempt, _ =>
    match oracle attempt with
    | .ok => .ok ()
    | .badJson => .error .invalidJson
    | .httpErr status detail =>
        if status = 401 then .error (.unauthorized detail)
        else if 400 ≤ status ∧ status < 500 ∧ status ≠ 429 then
          .error (.rejected status detail)
        else if status ∉ OPENAI_EMBED_RETRYABLE_STATUS_CODES ∨ maxRetries ≤ attempt then
          .error (.failedAfter attempt status detail)
        else
          retrievalEmbedGo maxRetries oracle remaining (attempt + 1)
            ("http " ++ toString status ++ ": " ++ detail)
    | .netErr reason =>
        if maxRetries ≤ attempt then .error (.unavailable attempt reason)
        else retrievalEmbedGo maxRetries oracle remaining (attempt + 1)
          ("network: " ++ reason)

/-- `_openai_embed` (retry loop) from `retrieval_service/app/main.py`. -/
def runEmbedRetrieval (maxRetries : Nat) (oracle : Nat → AttemptOutcome) :
    Except RetrievalEmbedError Unit :=
  retrievalEmbedGo maxRetries oracle maxRetries 1 "unknown embedding error"

/-- Failure surface of `embed` in `codegraph_shared/openai_utils.py`. -/
inductive SharedEmbedError where
  | badRequest
  | unauthorized (detail : String)
  | rejected (status : Nat) (detail : String)
  | failedAfter (attempts status : Nat) (detail : String)
  | unavailable (attempts : Nat) (reason : String)
  | invalidJsonAfter (attempts : Nat)
  | noData (attempts : Nat) (lastError : String)
deriving DecidableEq, Repr

/-- The retry loop of `embed` in `codegraph_shared/openai_utils.py`
(`while attempt < max_retries: attempt += 1; ...`, i.e. attempts 1..max).
Unlike the retrieval-service embedder, a `json.JSONDecodeError` here is
retried while attempts remain. -/
def sharedEmbedGo (maxRetries : Nat) (oracle : Nat → AttemptOutcome) :
    Nat → Nat → String → Except SharedEmbedError Unit
  | 0, _, lastError => .error (.noData maxRetries lastError)
  | remaining + 1, attempt, _ =>
    match oracle attempt with
    | .ok => .ok ()
    | .badJson =>
        if maxRetries ≤ attempt then .error (.invalidJsonAfter attempt)
        else sharedEmbedGo maxRetries oracle remaining (attempt + 1) "invalid json"
    | .httpErr status detail =>
        if status = 401 then .error (.unauthorized detail)
        else if 400 ≤ status ∧ status < 500 ∧ status ≠ 429 then
          .error (.rejected status detail)
        else if status ∉ OPENAI_EMBED_RETRYABLE_STATUS_CODES ∨ maxRetries ≤ attempt then
          .error (.failedAfter attempt status detail)
        else
          sharedEmbedGo maxRetries oracle remaining (attempt + 1)
            ("http " ++ toString status ++ ": " ++ detail)
    | .netErr reason =>
        if maxRetries ≤ attempt then .error (.unavailable attempt reason)
        else sharedEmbedGo maxRetries oracle remaining (attempt + 1)
          ("network: " ++ reason)

/-- `embed` from `codegraph_shared/openai_utils.py` (the retry loop; the
empty-input and missing-api-key guards precede it). -/
def runEmbedShared (inputs : List String) (apiKey : String) (maxRetries : Nat)
    (oracle : Nat → AttemptOutcome) : Except SharedEmbedError Unit :=
  if inputs = [] then .ok ()
  else if apiKey = "" then .error .badRequest
  else sharedEmbedGo maxRetries oracle maxRetries 1 "unknown embedding error"

/-- The failure classes the pipeline embed step actually retries:
HTTP 502/503/504 and network errors / timeouts. -/
def pipelineRetryable : AttemptOutcome → Prop
  | .httpErr s _ => s ∈ TRANSIENT_EMBED_HTTP_STATUSES
  | .netErr _ => True
  | _ => False

/-- The failure classes the retrieval-service question embedder retries:
HTTP 429/500/502/503/504 and network errors / timeouts (not malformed JSON). -/
def retrievalRetryable : AttemptOutcome → Prop
  | .httpErr s _ => s ∈ OPENAI_EMBED_RETRYABLE_STATUS_CODES
  | .netErr _ => True
  | _ => False

/-- The failure classes the shared embed utility retries: HTTP
429/500/502/503/504, network errors / timeouts, and malformed JSON bodies. -/
def sharedRetryable : AttemptOutcome → Prop
  | .httpErr s _ => s ∈ OPENAI_EMBED_RETRYABLE_STATUS_CODES
  | .netErr _ => True
  | .badJson => True
  | _ => False

/-! ## §4.H Job engine (`run_pipeline_job` in `services/workers/job_runner.py`) -/

/-- `MAX_ATTEMPTS` from `services/workers/job_runner.py`. -/
def MAX_ATTEMPTS : Nat := 3

/-- `MAX_ZIP_MB`, `MAX_FILES`, `MAX_TOTAL_UNZIPPED_MB`, `MB` defaults from
`services/workers/job_runner.py`. -/
def MAX_ZIP_MB : Nat := 50

def MAX_FILES : Nat := 20000

def MAX_TOTAL_UNZIPPED_MB : Nat := 500

def MB : Nat := 1024 * 1024

/-- The `RuntimeError` raise sites of the worker (`job_runner.py` and
`parse_graph.build_graph_facts`), each carrying its detail data.  Messages are
rendered with the literal prefixes of the corresponding f-strings. -/
inductive RuntimeErr where
  | zipTooLarge (size : Nat)
  | unsafeZipPath (name : String)
  | zipSymlink (name : String)
  | zipTooManyFiles
  | zipTooBig
  | zipNotFound (path : String)
  | unsupportedJobType (jobType : String)
  | missingRepoDir (path : String)
  | missingFactsFile (path : String)
  | graphServiceLoadFailed (code : Nat) (detail : String)
  | graphServiceUnreachable (reason : String)
deriving DecidableEq, Repr

/-- `str(exc)` for each worker `RuntimeError`. -/
def RuntimeErr.message : RuntimeErr → String
  | .zipTooLarge size =>
      "ZIP size " ++ (toString size ++ " bytes exceeds MAX_ZIP_MB=" ++ toString MAX_ZIP_MB ++ ".")
  | .unsafeZipPath name => "Unsafe ZIP member path: " ++ name
  | .zipSymlink name => "ZIP symlink entries are not allowed: " ++ name
  | .zipTooManyFiles => "ZIP contains too many files; MAX_FILES=" ++ (toString MAX_FILES ++ ".")
  | .zipTooBig =>
      "ZIP uncompressed size exceeds MAX_TOTAL_UNZIPPED_MB=" ++
        (toString MAX_TOTAL_UNZIPPED_MB ++ ".")
  | .zipNotFound path => "ZIP upload not found at " ++ (path ++ ".")
  | .unsupportedJobType jobType => "Unsupported job_type for ingest: " ++ jobType
  | .missingRepoDir path => "Cannot parse missing repo directory: " ++ path
  | .missingFactsFile path => "Missing graph facts file: " ++ path
  | .graphServiceLoadFailed code detail =>
      "graph_service load failed (" ++ (toString code ++ "): " ++ detail)
  | .graphServiceUnreachable reason => "graph_service unreachable: " ++ reason

/-- An exception escaping a pipeline step: either the `EmbedStepFailed` class
(which the engine treats specially) or one of the worker's `RuntimeError`s. -/
inductive StepExc where
  | embedStepFailed (e : EmbedStepError)
  | runtime (e : RuntimeErr)
deriving DecidableEq, Repr

/-- `isinstance(exc, EmbedStepFailed)`. -/
def StepExc.isEmbedStepFailed : StepExc → Bool
  | .embedStepFailed _ => true
  | .runtime _ => false

/-- `str(exc)` for a step exception. -/
def StepExc.message : StepExc → String
  | .embedStepFailed e => e.message
  | .runtime e => e.message

/-- Modelled from the spec (§3) and its use in `job_runner.py` /
`api_gateway/app/main.py`: the job record (`models.Job`, whose declaring module
is not part of the sources).  `status ∈ {queued, running, completed, failed}`,
`progress ∈ [0,100]`, `current_step`, an `attempts` counter and optional
`error` text. -/
structure Job where
  status : String
  progress : Nat
  currentStep : Option String
  attempts : Nat
  error : Option String
deriving DecidableEq, Repr

/-- The job record as created by `_create_pipeline_job` in
`api_gateway/app/main.py`: `status="queued", progress=0,
current_step="INGEST", attempts=0, error=None`. -/
def initJob : Job :=
  { status := "queued"
    progress := 0
    currentStep := some "INGEST"
    attempts := 0
    error := none }

/-- A finished job record, as left by the final transaction of
`run_pipeline_job`. -/
def doneJob : Job :=
  { status := "completed"
    progress := 100
    currentStep := some "EMBED"
    attempts := 1
    error := none }

/-- The claim transaction of `run_pipeline_job` (first `SessionLocal.begin`
block): completed or running jobs are returned unchanged with their current
status; otherwise the job is claimed. `max(job.progress or 0, 1)` is
`max progress 1` on `Nat`. The second component is the returned status
string (`"claimed"` standing for proceeding into the step sequence). -/
def claimStep (j : Job) : Job × String :=
  if j.status = "completed" then (j, "completed")
  else if j.status = "running" then (j, "running")
  else
    ({ j with
        status := "running"
        error := none
        currentStep := some "INGEST"
        progress := max j.progress 1 }, "claimed")

/-- The exception handler of `run_pipeline_job`: increment `attempts`, record
`error`; `EmbedStepFailed` fails immediately; otherwise requeue while
`attempts < MAX_ATTEMPTS`, else fail.  The second component is `retry_job`. -/
def handleStepFailure (j : Job) (exc : StepExc) : Job × Bool :=
  let j' : Job := { j with attempts := j.attempts + 1, error := some exc.message }
  if exc.isEmbedStepFailed then ({ j' with status := "failed" }, false)
  else if MAX_ATTEMPTS ≤ j'.attempts then ({ j' with status := "failed" }, false)
  else ({ j' with status := "queued" }, true)

/-- Per-step milestones written by the success transactions of
`run_pipeline_job`. -/
def stepMilestones : List (String × Nat) :=
  [("INGEST", 25), ("PARSE", 50), ("LOAD_GRAPH", 75), ("EMBED", 90)]

/-- One committed transaction of the job engine (`run_pipeline_job`):
claiming, a successful step milestone, the final completion transaction, the
exception handler, or the `MaxRetriesExceededError` fallback.  Step
transactions only occur inside a claimed (running) job; the max-retries
fallback follows the handler's requeue, hence fires on a queued job. -/
inductive EngineStep : Job → Job → Prop where
  | claim (j : Job) (hc : j.status ≠ "completed") (hr : j.status ≠ "running") :
      EngineStep j { j with
                      status := "running"
                      error := none
                      currentStep := some "INGEST"
                      progress := max j.progress 1 }
  | stepOk (j : Job) (step : String) (milestone : Nat)
      (hm : (step, milestone) ∈ stepMilestones) (hrun : j.status = "running") :
      EngineStep j { j with currentStep := some step, progress := milestone }
  | finalOk (j : Job) (hrun : j.status = "running") :
      EngineStep j { j with
                      status := "completed"
                      progress := 100
                      currentStep := some "EMBED"
                      error := none }
  | stepFail (j : Job) (e : StepExc) (hrun : j.status = "running") :
      EngineStep j (handleStepFailure j e).1
  | maxRetriesExceeded (j : Job) (e : StepExc) (hq : j.status = "queued") :
      EngineStep j { j with status := "failed", error := some e.message }

/-- States reachable from a freshly created job record by engine
transactions. -/
def JobReachable (j : Job) : Prop :=
  Relation.ReflTransGen EngineStep initJob j

/-! ## §4.A Archive sandbox (`_safe_extract_zip`, `_ingest_zip`) -/

/-- One archive member as seen through `zipfile.ZipInfo`: its name, whether it
is a directory entry, whether its external attributes mark it as a symbolic
link (`(external_attr >> 16) & 0o170000 == 0o120000`), and its uncompressed
size. -/
structure ZipEntry where
  filename : String
  isDir : Bool
  isSymlink : Bool
  fileSize : Nat
deriving DecidableEq, Repr

/-- `(extract_dir / member_name).resolve()` over path components: an absolute
member name replaces the root, `.` components vanish, and `..` pops the last
component (staying at the filesystem root when none is left). -/
def resolveUnder (root : List String) (name : String) : List String :=
  let comps := (pySplitChar '/' name).filter (fun c => c != "" && c != ".")
  let start := if name.data.head? = some '/' then [] else root
  comps.foldl (fun acc c => if c = ".." then acc.dropLast else acc ++ [c]) start

/-- `_is_within_directory(destination, root)`: the resolved destination is
inside the extraction root. -/
def memberWithin (root : List String) (name : String) : Bool :=
  root.isPrefixOf (resolveUnder root name)

/-- First pass of `_safe_extract_zip`: for every member, in order, check path
containment and the symlink bit, then (for non-directories) the file-count and
total-uncompressed-size limits.  No file is materialized during this pass. -/
def validateEntries (root : List String) :
    List ZipEntry → Nat → Nat → Except RuntimeErr Unit
  | [], _, _ => .ok ()
  | e :: rest, fileCount, totalBytes =>
    if !memberWithin root e.filename then .error (.unsafeZipPath e.filename)
    else if e.isSymlink then .error (.zipSymlink e.filename)
    else if e.isDir then validateEntries root rest fileCount totalBytes
    else
      let fc := fileCount + 1
      if MAX_FILES < fc then .error .zipTooManyFiles
      else
        let tb := totalBytes + e.fileSize
        if MAX_TOTAL_UNZIPPED_MB * MB < tb then .error .zipTooBig
        else validateEntries root rest fc tb

/-- Second pass of `_safe_extract_zip`: every non-directory member is written
into the extraction directory. -/
def materializeEntries (entries : List ZipEntry) : List String :=
  (entries.filter (fun e => !e.isDir)).map ZipEntry.filename

/-- `_safe_extract_zip(zip_file, extract_dir)`: the compressed-size limit,
then the validation pass, then materialization.  Returns the files written on
success. -/
def safeExtractZip (zipSize : Nat) (entries : List ZipEntry) (root : List String) :
    Except RuntimeErr (List String) :=
  if MAX_ZIP_MB * MB < zipSize then .error (.zipTooLarge zipSize)
  else
    match validateEntries root entries 0 0 with
    | .error e => .error e
    | .ok _ => .ok (materializeEntries entries)

/-- The filesystem state touched by `_ingest_zip`: the destination repo
directory (present with its files, or absent), the uploaded archive, and the
temporary extraction directory `repos/.<repo_id>.tmp`. -/
structure WorkerFS where
  repoDir : Option (List String)
  zipExists : Bool
  zipPath : String
  zipSize : Nat
  zipEntries : List ZipEntry
  tmpDir : Option (List String)
deriving DecidableEq, Repr

/-- `_ingest_zip(repo_id)`: skip when the repo directory already exists; fail
when the upload is missing; otherwise extract into a fresh temporary directory
and publish it by rename.  On any extraction failure the temporary directory
is removed and the exception re-raised, leaving the destination absent. -/
def ingestZip (fs : WorkerFS) (tmpRoot : List String) :
    Except RuntimeErr Unit × WorkerFS :=
  if fs.repoDir.isSome then (.ok (), fs)
  else if !fs.zipExists then (.error (.zipNotFound fs.zipPath), fs)
  else
    match safeExtractZip fs.zipSize fs.zipEntries tmpRoot with
    | .ok files => (.ok (), { fs with repoDir := some files, tmpDir := none })
    | .error err => (.error err, { fs with tmpDir := none })

/-! ## §4.E Hybrid retriever merge (`retrieve` in `retrieval_service/app/main.py`,
the merge / combine / rank / truncate portion). Scores are rationals standing
for the Python floats. -/

/-- One search hit: the node id (`hit["node"]["id"]`, empty when missing) and
the provider score. The remaining node payload plays no role in merging or
ranking. -/
structure Hit where
  nodeId : String
  score : ℚ
deriving DecidableEq, Repr

/-- A `merged` entry: the maximum semantic and keyword scores observed so far,
`None` when that source has not produced this id. -/
structure MergedEntry where
  semantic : Option ℚ
  keyword : Option ℚ
deriving DecidableEq, Repr

/-- `if prev is None or score > prev: entry[...] = score`. -/
def updMax : Option ℚ → ℚ → Option ℚ
  | none, s => some s
  | some p, s => if p < s then some s else some p

/-- `merged.setdefault(node_id, {...})`: Python dicts preserve insertion
order, so a fresh entry is appended at the end. -/
def alSetdefault (m : List (String × MergedEntry)) (k : String) :
    List (String × MergedEntry) :=
  if (m.lookup k).isSome then m else m ++ [(k, ⟨none, none⟩)]

/-- In-place update of the entry stored under `k`. -/
def alModify (m : List (String × MergedEntry)) (k : String)
    (f : MergedEntry → MergedEntry) : List (String × MergedEntry) :=
  m.map (fun p => if p.1 = k then (p.1, f p.2) else p)

/-- Processing one keyword hit (first merge loop of `retrieve`). -/
def keywordStep (m : List (String × MergedEntry)) (h : Hit) :
    List (String × MergedEntry) :=
  if h.nodeId = "" then m
  else
    alModify (alSetdefault m h.nodeId) h.nodeId
      (fun e => { e with keyword := updMax e.keyword h.score })

/-- Processing one semantic hit (second merge loop of `retrieve`). -/
def semanticStep (m : List (String × MergedEntry)) (h : Hit) :
    List (String × MergedEntry) :=
  if h.nodeId = "" then m
  else
    alModify (alSetdefault m h.nodeId) h.nodeId
      (fun e => { e with semantic := updMax e.semantic h.score })

/-- `max(semantic or -inf, keyword or -inf)`, then `-inf ↦ 0.0`: with both
scores absent the combined score is 0, otherwise the maximum of the present
scores. -/
def combinedScore : Option ℚ → Option ℚ → ℚ
  | none, none => 0
  | some s, none => s
  | none, some k => k
  | some s, some k => max s k

/-- A ranked result row (`node_id`, sub-scores, combined score). -/
structure RankedItem where
  nodeId : String
  semantic : Option ℚ
  keyword : Option ℚ
  score : ℚ
deriving DecidableEq, Repr

/-- Building the `ranked` list from `merged` (dict iteration order =
insertion order). -/
def rankedOf (m : List (String × MergedEntry)) : List RankedItem :=
  m.map (fun p => ⟨p.1, p.2.semantic, p.2.keyword, combinedScore p.2.semantic p.2.keyword⟩)

/-- Stable insertion keeping elements with a score ≥ the new one in front:
together with `sortDesc` this is `list.sort(key=score, reverse=True)`
(a stable descending sort). -/
def insertDesc (x : RankedItem) : List RankedItem → List RankedItem
  | [] => [x]
  | y :: ys => if x.score ≤ y.score then y :: insertDesc x ys else x :: y :: ys

/-- Stable descending sort by combined score. -/
def sortDesc (l : List RankedItem) : List RankedItem :=
  l.foldl (fun acc x => insertDesc x acc) []

/-- The `merged` dict after both merge loops of `retrieve`. -/
def mergedOf (keywordHits semanticHits : List Hit) :
    List (String × MergedEntry) :=
  semanticHits.foldl semanticStep (keywordHits.foldl keywordStep [])

/-- The merge / rank / truncate portion of `retrieve` (lines building
`merged`, `ranked`, then `ranked.sort(...); ranked = ranked[:top_k]`). -/
def mergeRank (keywordHits semanticHits : List Hit) (topK : Nat) :
    List RankedItem :=
  (sortDesc (rankedOf (mergedOf keywordHits semanticHits))).take topK

/-- The maximum of two optional scores (`None` = source absent). -/
def optMax : Option ℚ → Option ℚ → Option ℚ
  | none, b => b
  | some a, none => some a
  | some a, some b => some (max a b)

/-- The maximum of a list of scores, `None` when empty. -/
def maxScore? : List ℚ → Option ℚ
  | [] => none
  | s :: rest => optMax (some s) (maxScore? rest)

/-- The maximum score a hit list assigns to a node id (`None` when the id
never occurs). -/
def bestScore (hits : List Hit) (id : String) : Option ℚ :=
  maxScore? ((hits.filter (fun h => h.nodeId == id)).map Hit.score)

/-- The merged entry stored under an id (a fresh `setdefault` default when
absent). -/
def entryAt (m : List (String × MergedEntry)) (id : String) : MergedEntry :=
  (m.lookup id).getD ⟨none, none⟩

/-! ## KG payload normalization (`codegraph_shared/kg_normalize.py`) -/

/-- A Python/JSON value as handled by `normalize_kg_extract`. -/
inductive PyVal where
  | str (s : String)
  | num (q : ℚ)
  | bool (b : Bool)
  | pynone
  | list (xs : List PyVal)
  | dict (kvs : List (String × PyVal))

/-- Python `str(...)`.  String values render as themselves; the renderings of
non-string values are abbreviated (the normalizer only ever tests the result
for emptiness after `strip()` and for membership in the valid-relation-type
set, and no Python rendering of a non-string value is empty or a member of
that set, matching the abbreviations used here). -/
def pyStr : PyVal → String
  | .str s => s
  | .num q => toString q.num ++ "/" ++ toString q.den
  | .bool true => "True"
  | .bool false => "False"
  | .pynone => "None"
  | .list _ => "[...]"
  | .dict _ => "\x7b...\x7d"

/-- Value of a digit string. -/
def digitsToNat (cs : List Char) : Nat :=
  cs.foldl (fun a c => 10 * a + (c.toNat - 48)) 0

/-- Python `float(s)` on plain decimal literals: optional sign, digits, an
optional fractional part (exponents, `inf`/`nan` and digit underscores are
not modelled; any successfully parsed value is clamped afterwards, so the
normalizer's guarantees do not depend on them). -/
def parseDecimal (s : String) : Option ℚ :=
  let cs0 := (pyStrip s).data
  let neg : Bool := cs0.head? == some '-'
  let cs :=
    match cs0 with
    | '-' :: r => r
    | '+' :: r => r
    | _ => cs0
  let signedRat := fun (n d : Nat) =>
    mkRat (if neg then -(n : Int) else (n : Int)) d
  let ip := cs.takeWhile Char.isDigit
  let rest := cs.dropWhile Char.isDigit
  match rest with
  | [] => if ip.isEmpty then none else some (signedRat (digitsToNat ip) 1)
  | '.' :: frac =>
    if frac.all Char.isDigit ∧ (ip ≠ [] ∨ frac ≠ []) then
      some (signedRat (digitsToNat ip * 10 ^ frac.length + digitsToNat frac)
        (10 ^ frac.length))
    else none
  | _ => none

/-- Python `float(x)`: numbers convert, booleans convert (`float(True)=1.0`),
strings parse as decimals, everything else raises (`None` here). -/
def pyFloat : PyVal → Option ℚ
  | .num q => some q
  | .bool b => some (if b then 1 else 0)
  | .str s => parseDecimal s
  | _ => none

/-- `d.get(k, default)`. -/
def dictGet (kvs : List (String × PyVal)) (k : String) (dflt : PyVal) : PyVal :=
  match kvs.lookup k with
  | some v => v
  | none => dflt

/-- `_VALID_RELATION_TYPES` from `kg_normalize.py`. -/
def VALID_RELATION_TYPES : List String :=
  ["defines", "uses", "depends_on", "calls", "inherits", "part_of", "related"]

/-- A normalized relation. -/
structure KgRelation where
  source : String
  target : String
  relationType : String
  confidence : ℚ
  evidence : String
deriving DecidableEq, Repr

/-- Normalization of one raw entity entry: non-dicts and entries with an
empty (stripped) name are dropped; the type defaults to `"unknown"`. -/
def normEntity : PyVal → Option (String × String)
  | .dict kvs =>
    let name := pyStrip (pyStr (dictGet kvs "name" (.str "")))
    if name = "" then none
    else
      let t := pyStrip (pyStr (dictGet kvs "type" (.str "unknown")))
      some (name, if t = "" then "unknown" else t)
  | _ => none

/-- Normalization of one raw relation entry: non-dicts and entries with an
empty source or target are dropped; the relation type is lower-cased,
defaulted and coerced into `_VALID_RELATION_TYPES`; the confidence is parsed
(default 0.5 on missing or non-numeric) and clamped into [0, 1]. -/
def normRelation : PyVal → Option KgRelation
  | .dict kvs =>
    let source := pyStrip (pyStr (dictGet kvs "source" (.str "")))
    let target := pyStrip (pyStr (dictGet kvs "target" (.str "")))
    if source = "" ∨ target = "" then none
    else
      let rt0 := pyToLower (pyStrip (pyStr (dictGet kvs "relation_type" (.str "related"))))
      let rt1 := if rt0 = "" then "related" else rt0
      let rt := if rt1 ∈ VALID_RELATION_TYPES then rt1 else "related"
      let evidence := pyStrip (pyStr (dictGet kvs "evidence" (.str "")))
      let conf0 := (pyFloat (dictGet kvs "confidence" (.num (mkRat 1 2)))).getD (mkRat 1 2)
      let conf := max 0 (min conf0 1)
      some ⟨source, target, rt, conf, evidence⟩
  | _ => none

/-- `normalize_kg_extract(raw)` from `codegraph_shared/kg_normalize.py`. -/
def normalizeKgExtract (raw : List (String × PyVal)) :
    List (String × String) × List KgRelation :=
  let rawEntities := dictGet raw "entities" (.list [])
  let rawRelations := dictGet raw "relationships" (.list [])
  let entities :=
    match rawEntities with
    | .list xs => xs.filterMap normEntity
    | _ => []
  let relations :=
    match rawRelations with
    | .list xs => xs.filterMap normRelation
    | _ => []
  (entities, relations)

/-! ## §4.B Structural extractor (`backend/services/workers/parse_graph.py`)

The concrete syntax tree produced by the external tree-sitter grammars is
modelled as a rose tree whose nodes carry their tree-sitter node type, the
source text of their span (`source_bytes[start_byte:end_byte]`, decoded), and
their children, each optionally tagged with its field name
(`child_by_field_name` resolves the first child carrying the field).
`hashlib.sha256(...).hexdigest()` is modelled by an arbitrary digest function
`hash : String → String`; every theorem below holds for every such function. -/

/-- A tree-sitter CST node: type, source text of its span, and tagged
children. -/
inductive TSNode where
  | mk (kind : String) (text : String) (children : List (Option String × TSNode))

/-- Node type (`node.type`). -/
def TSNode.kind : TSNode → String
  | .mk k _ _ => k

/-- `_node_text(node, source_bytes)`. -/
def TSNode.text : TSNode → String
  | .mk _ t _ => t

/-- `node.children`, with field tags. -/
def TSNode.children : TSNode → List (Option String × TSNode)
  | .mk _ _ ch => ch

/-- `node.child_by_field_name(f)`. -/
def childByField (n : TSNode) (f : String) : Option TSNode :=
  (n.children.find? (fun c => c.1 == some f)).map (fun c => c.2)

/-- `_EXT_TO_LANG` from `parse_graph.py`. -/
def EXT_TO_LANG : List (String × String) :=
  [(".py", "python"), (".js", "javascript"), (".jsx", "javascript"),
   (".ts", "typescript"), (".tsx", "tsx"), (".java", "java"),
   (".go", "go"), (".rs", "rust")]

/-- `_DEFINITION_NODES`: per language, `(ts_node_type, graph_node_type,
name_field)`. -/
def DEFINITION_NODES : List (String × List (String × String × String)) :=
  [("python",
    [("class_definition", "class", "name"),
     ("function_definition", "function", "name"),
     ("decorated_definition", "function", "name")]),
   ("javascript",
    [("class_declaration", "class", "name"),
     ("function_declaration", "function", "name"),
     ("arrow_function", "function", "name"),
     ("method_definition", "function", "name"),
     ("generator_function_declaration", "function", "name")]),
   ("typescript",
    [("class_declaration", "class", "name"),
     ("function_declaration", "function", "name"),
     ("arrow_function", "function", "name"),
     ("method_definition", "function", "name"),
     ("method_signature", "function", "name"),
     ("abstract_class_declaration", "class", "name"),
     ("interface_declaration", "class", "name")]),
   ("tsx",
    [("class_declaration", "class", "name"),
     ("function_declaration", "function", "name"),
     ("arrow_function", "function", "name"),
     ("method_definition", "function", "name"),
     ("interface_declaration", "class", "name")]),
   ("java",
    [("class_declaration", "class", "name"),
     ("interface_declaration", "class", "name"),
     ("enum_declaration", "class", "name"),
     ("method_declaration", "function", "name"),
     ("constructor_declaration", "function", "name")]),
   ("go",
    [("type_declaration", "class", "name"),
     ("function_declaration", "function", "name"),
     ("method_declaration", "function", "name"),
     ("short_var_declaration", "function", "left")]),
   ("rust",
    [("struct_item", "class", "name"),
     ("enum_item", "class", "name"),
     ("trait_item", "class", "name"),
     ("impl_item", "class", "name"),
     ("function_item", "function", "name")])]

/-- `_IMPORT_NODES`. -/
def IMPORT_NODES : List (String × List String) :=
  [("python", ["import_statement", "import_from_statement"]),
   ("javascript", ["import_statement", "import_declaration"]),
   ("typescript", ["import_statement", "import_declaration"]),
   ("tsx", ["import_statement", "import_declaration"]),
   ("java", ["import_declaration"]),
   ("go", ["import_spec"]),
   ("rust", ["use_declaration"])]

/-- `_CALL_NODES`. -/
def CALL_NODES : List (String × String) :=
  [("python", "call"), ("javascript", "call_expression"),
   ("typescript", "call_expression"), ("tsx", "call_expression"),
   ("java", "method_invocation"), ("go", "call_expression"),
   ("rust", "call_expression")]

/-- `_stable_node_id`: the digest of `f"{repo_id}|{path}|{symbol}|{node_type}"`. -/
def stableNodeId (hash : String → String) (repoId path symbol kind : String) : String :=
  hash (repoId ++ "|" ++ path ++ "|" ++ symbol ++ "|" ++ kind)

/-- `_truncate_snippet`. -/
def truncateSnippet (maxChars : Int) (t : String) : String :=
  if maxChars ≤ 0 then ""
  else if (t.length : Int) ≤ maxChars then t
  else ⟨t.data.take maxChars.toNat⟩

/-- A node of the emitted facts document. -/
structure FactNode where
  id : String
  type : String
  name : String
  path : String
  snippet : String
deriving DecidableEq, Repr

/-- The mutable extraction state of `_extract_facts_treesitter`: the `nodes`
and `edges` accumulators and the `local_symbol_ids` table (later bindings
shadow earlier ones, matching dict overwrite). -/
structure ExtractSt where
  nodes : List FactNode
  edges : List (String × String × String)
  locals : List (String × String)

/-- The per-file constants of `_extract_facts_treesitter`. -/
structure ExtractParams where
  hash : String → String
  repoId : String
  relPath : String
  maxSnippet : Int
  fileNodeId : String
  defSpecs : List (String × String × String)
  importTypes : List String
  callType : Option String

/-- Python truthiness of the optional symbol name (`if not symbol_name`). -/
def symFalsy : Option String → Bool
  | none => true
  | some s => s == ""

/-- `_find_name(node, field, source_bytes)`: the named field child, else (for
wrapper parents) the parent's `name` field, else (for Go short variable
declarations) the parent's `left` field. -/
def findName (node : TSNode) (field : String) (parent : Option TSNode) :
    Option String :=
  match childByField node field with
  | some c => some (pyStrip c.text)
  | none =>
    match parent with
    | none => none
    | some p =>
      let viaDecl : Option String :=
        if p.kind = "variable_declarator" ∨ p.kind = "lexical_declaration" ∨
            p.kind = "variable_declaration" then
          (childByField p "name").map (fun nc => pyStrip nc.text)
        else none
      match viaDecl with
      | some v => some v
      | none =>
        if p.kind = "short_var_declaration" then
          (childByField p "left").map (fun lc => pyStrip lc.text)
        else none

/-- First matching definition spec for a node type (the spec loop `break`s on
the first match). -/
def findSpec (specs : List (String × String × String)) (k : String) :
    Option (String × String) :=
  (specs.find? (fun s => s.1 == k)).map (fun s => s.2)

/-- The decorated-definition fallback: the first child that is a
function/class definition supplies the inner name and the graph type; the
loop breaks at that child whether or not its name resolves. -/
def decoratedInner (node : TSNode) : Option (String × String) :=
  match node.children.find?
      (fun (c : Option String × TSNode) =>
        c.2.kind == "function_definition" || c.2.kind == "class_definition" ||
          c.2.kind == "async_function_definition") with
  | some c =>
    match findName c.2 "name" (some node) with
    | some inner =>
      if inner = "" then none
      else some (inner, if c.2.kind = "class_definition" then "class" else "function")
    | none => none
  | none => none

/-- The definition-node branch of `walk`: emit a class/function node, a
`contains` edge from the file node, and a local-symbol binding, deduplicating
by node id. -/
def defBranch (P : ExtractParams) (node : TSNode) (parent : Option TSNode)
    (st : ExtractSt) : ExtractSt :=
  match findSpec P.defSpecs node.kind with
  | none => st
  | some gtnf =>
    let sym0 := findName node gtnf.2 parent
    let symGt : Option (String × String) :=
      if symFalsy sym0 then
        if node.kind = "decorated_definition" then decoratedInner node else none
      else sym0.map (fun s => (s, gtnf.1))
    match symGt with
    | none => st
    | some sg =>
      let nodeId := stableNodeId P.hash P.repoId P.relPath sg.1 sg.2
      if st.nodes.any (fun n => n.id == nodeId) then st
      else
        { nodes := st.nodes ++
            [⟨nodeId, sg.2, sg.1, P.relPath, truncateSnippet P.maxSnippet node.text⟩]
          edges := st.edges ++ [(P.fileNodeId, nodeId, "contains")]
          locals := (sg.1, nodeId) :: st.locals }

/-- `token.rstrip(";")`. -/
def pyRstripSemicolons (t : String) : String :=
  pyRstrip (fun c => c == ';') t

/-- `token.strip("\x22'")`: strip quote characters from both ends. -/
def pyStripQuotes (t : String) : String :=
  pyStripChars (fun c => c == '"' || c == '\'') t

/-- The textual module-path normalization of the import branch: strip leading
keywords, take the first whitespace token, strip trailing semicolons and
surrounding quotes. -/
def moduleNameOf (rawText : String) : String :=
  let r := ["import", "from", "use", "package"].foldl
    (fun acc kw => pyStrip (pyReplaceFirst acc kw)) (pyStrip rawText)
  match pySplitWs r with
  | [] => ""
  | t :: _ => pyStripQuotes (pyRstripSemicolons t)

/-- The import-node branch of `walk`: emit or reuse a `module` node with path
`<external>` and an `imports` edge from the file node. -/
def importBranch (P : ExtractParams) (node : TSNode) (st : ExtractSt) :
    ExtractSt :=
  if node.kind ∈ P.importTypes then
    let moduleName := moduleNameOf node.text
    if moduleName = "" then st
    else
      let moduleId := stableNodeId P.hash P.repoId "<external>" moduleName "module"
      let st1 :=
        if st.nodes.any (fun n => n.id == moduleId) then st
        else { st with nodes := st.nodes ++
                [⟨moduleId, "module", moduleName, "<external>", ""⟩] }
      { st1 with edges := st1.edges ++ [(P.fileNodeId, moduleId, "imports")] }
  else st

/-- The enclosing-definition search of the call branch: walk the ancestor
chain, returning the local-symbol id of the first ancestor whose resolved name
is a local symbol, else the file node id. -/
def findEnclosing (locals : List (String × String)) (fid : String) :
    List TSNode → String
  | [] => fid
  | a :: rest =>
    match findName a "name" rest.head? with
    | some n =>
      if n ≠ "" then
        match locals.lookup n with
        | some sid => sid
        | none => findEnclosing locals fid rest
      else findEnclosing locals fid rest
    | none => findEnclosing locals fid rest

/-- The call-expression branch of `walk`: resolve the callee from the
`function` field (or the first child), keep only calls to locally-known
symbols, and emit a `calls` edge from the nearest enclosing definition (or the
file node) unless it would self-loop. -/
def callBranch (P : ExtractParams) (node : TSNode) (ancestors : List TSNode)
    (st : ExtractSt) : ExtractSt :=
  match P.callType with
  | none => st
  | some ct =>
    if node.kind = ct then
      let funcNode :=
        match childByField node "function" with
        | some f => some f
        | none => node.children.head?.map (fun (c : Option String × TSNode) => c.2)
      match funcNode with
      | none => st
      | some f =>
        let callName := (pySplitChar '(' (pyStrip f.text)).headD ""
        match st.locals.lookup callName with
        | none => st
        | some targetId =>
          let sourceId := findEnclosing st.locals P.fileNodeId ancestors
          if sourceId = targetId then st
          else { st with edges := st.edges ++ [(sourceId, targetId, "calls")] }
    else st

mutual
/-- The recursive `walk` of `_extract_facts_treesitter`: the definition
branch, the import branch and the call branch in source order, then the
children.  `ancestors`
is the parent chain, nearest first (`node.parent`, `node.parent.parent`, …). -/
def walkNode (P : ExtractParams) (node : TSNode) (ancestors : List TSNode)
    (st : ExtractSt) : ExtractSt :=
  match node with
  | .mk k t ch =>
    let st1 := defBranch P (.mk k t ch) ancestors.head? st
    let st2 := importBranch P (.mk k t ch) st1
    let st3 := callBranch P (.mk k t ch) ancestors st2
    walkChildren P ch (TSNode.mk k t ch :: ancestors) st3
termination_by sizeOf node
decreasing_by
  all_goals simp_wf

/-- `for child in node.children: walk(child)`. -/
def walkChildren (P : ExtractParams) (cs : List (Option String × TSNode))
    (ancestors : List TSNode) (st : ExtractSt) : ExtractSt :=
  match cs with
  | [] => st
  | c :: rest => walkChildren P rest ancestors (walkNode P c.2 ancestors st)
termination_by sizeOf cs
decreasing_by
  all_goals simp_wf
  all_goals first
    | omega
    | (rcases c with ⟨tag, child⟩; simp; omega)
end

/-- `Path(rel_path).name`. -/
def pyBaseName (relPath : String) : String :=
  ((pySplitChar '/' relPath).getLast?).getD relPath

/-- `_extract_facts_treesitter(source_bytes, lang_name, rel_path, repo_id,
max_snippet_chars)`: emit the file node, then walk the tree. -/
def extractFacts (hash : String → String) (repoId relPath : String)
    (maxSnippet : Int) (langName : String) (text : String) (tree : TSNode) :
    List FactNode × List (String × String × String) :=
  let fileNodeId := stableNodeId hash repoId relPath relPath "file"
  let P : ExtractParams :=
    { hash := hash
      repoId := repoId
      relPath := relPath
      maxSnippet := maxSnippet
      fileNodeId := fileNodeId
      defSpecs := (DEFINITION_NODES.lookup langName).getD []
      importTypes := (IMPORT_NODES.lookup langName).getD []
      callType := CALL_NODES.lookup langName }
  let st0 : ExtractSt :=
    { nodes := [⟨fileNodeId, "file", pyBaseName relPath, relPath,
        truncateSnippet maxSnippet text⟩]
      edges := []
      locals := [] }
  let st := walkNode P tree [] st0
  (st.nodes, st.edges)

/-- Comparison by a key into a linear order (Python's `sort(key=...)`). -/
def keyLe {α : Type} {β : Type} [LinearOrder β] (key : α → β) (a b : α) : Prop :=
  key a ≤ key b

instance {α β : Type} [LinearOrder β] (key : α → β) : DecidableRel (keyLe key) :=
  fun a b => inferInstanceAs (Decidable (key a ≤ key b))

instance {α β : Type} [LinearOrder β] (key : α → β) : IsTotal α (keyLe key) :=
  ⟨fun a b => le_total (key a) (key b)⟩

instance {α β : Type} [LinearOrder β] (key : α → β) : IsTrans α (keyLe key) :=
  ⟨fun _ _ _ hab hbc => le_trans hab hbc⟩

/-- `sorted(l, key=key)` for distinct keys (our uses all have distinct keys,
so stability plays no role). -/
def sortByKey {α β : Type} [LinearOrder β] (key : α → β) (l : List α) : List α :=
  List.insertionSort (keyLe key) l

/-- Sort key for edges: the lexicographic order on `(source, target, kind)`
triples (Python tuple ordering in `sorted(edges_set)`). -/
def edgeKey (e : String × String × String) : Lex (String × Lex (String × String)) :=
  toLex (e.1, toLex (e.2.1, e.2.2))

/-- One candidate source file as found by the `os.walk` in
`_iter_source_files`: its repo-relative POSIX path, its extension
(`Path(filename).suffix`), whether `read_bytes()` succeeds, its decoded text,
and the tree the language's grammar parses it to. -/
structure SourceFile where
  relPath : String
  ext : String
  readOk : Bool
  text : String
  tree : TSNode

/-- An edge of the emitted facts document. -/
structure FactEdge where
  source : String
  target : String
  type : String
deriving DecidableEq, Repr

/-- The `graph_facts.json` document. -/
structure GraphFacts where
  repoId : String
  nodes : List FactNode
  edges : List FactEdge
deriving DecidableEq, Repr

/-- `_iter_source_files(repo_dir)`: keep files whose lower-cased extension is
registered, paired with their language, sorted by path.  (The source sorts by
absolute path; all paths share the `repo_dir` prefix, so this is the
relative-path order.)  The directory walk delivers `files` in an arbitrary
order — the determinism claims quantify over it. -/
def iterSourceFiles (files : List SourceFile) : List (SourceFile × String) :=
  sortByKey (fun p => p.1.relPath)
    (files.filterMap (fun f =>
      (EXT_TO_LANG.lookup (pyToLower f.ext)).map (fun l => (f, l))))

/-- The per-file accumulation step of `build_graph_facts`: skip unreadable
files; `nodes_by_id.setdefault(node["id"], node)` for each extracted node
(first occurrence wins, insertion order kept); `edges_set.add(edge)` is
collapsing the concatenated edge list with `dedup` below. -/
def buildStep (hash : String → String) (repoId : String) (maxSnippet : Int)
    (acc : List (String × FactNode) × List (String × String × String))
    (fl : SourceFile × String) :
    List (String × FactNode) × List (String × String × String) :=
  if fl.1.readOk then
    let res := extractFacts hash repoId fl.1.relPath maxSnippet fl.2 fl.1.text fl.1.tree
    (res.1.foldl
      (fun m n => if (m.lookup n.id).isSome then m else m ++ [(n.id, n)]) acc.1,
     acc.2 ++ res.2)
  else acc

/-- `build_graph_facts(repo_id, repo_dir)`: walk the files in sorted order,
deduplicate nodes by id and edges as a set, and emit nodes sorted by id and
edges sorted by `(source, target, kind)`. -/
def buildGraphFacts (hash : String → String) (repoId : String) (maxSnippet : Int)
    (files : List SourceFile) : GraphFacts :=
  let fs := iterSourceFiles files
  let acc := fs.foldl (buildStep hash repoId maxSnippet) ([], [])
  let nodes := sortByKey FactNode.id (acc.1.map (fun p => p.2))
  let edges := (sortByKey edgeKey acc.2.dedup).map
    (fun e => FactEdge.mk e.1 e.2.1 e.2.2)
  { repoId := repoId, nodes := nodes, edges := edges }

/-- A JSON string literal (escaping elided; serialization is a fixed function
of the document, which is all the determinism claim needs). -/
def renderStr (s : String) : String := "\"" ++ s ++ "\""

/-- Serialization of one node object, field order as emitted by the source. -/
def renderNode (n : FactNode) : String :=
  "\x7b\"id\": " ++ renderStr n.id ++ ", \"type\": " ++ renderStr n.type ++
    ", \"name\": " ++ renderStr n.name ++ ", \"path\": " ++ renderStr n.path ++
    ", \"code_snippet\": " ++ renderStr n.snippet ++ "\x7d"

/-- Serialization of one edge object. -/
def renderEdge (e : FactEdge) : String :=
  "\x7b\"source\": " ++ renderStr e.source ++ ", \"target\": " ++
    renderStr e.target ++ ", \"type\": " ++ renderStr e.type ++ "\x7d"

/-- `json.dumps(facts, ...)` as written by `write_graph_facts`: a fixed,
deterministic function of the facts document. -/
def renderGraphFacts (g : GraphFacts) : String :=
  "\x7b\"repo_id\": " ++ renderStr g.repoId ++ ", \"nodes\": [" ++
    String.intercalate ", " (g.nodes.map renderNode) ++ "], \"edges\": [" ++
    String.intercalate ", " (g.edges.map renderEdge) ++ "]\x7d"

/-! ## Remaining definitions shared by the theorems -/

/-- `last_status` recorded by `_run_embed` after one failed attempt. -/
def outcomeStatus : AttemptOutcome → Option Nat
  | .httpErr s _ => some s
  | _ => none

/-- `last_detail` recorded by `_run_embed` after one failed attempt. -/
def outcomeDetail : AttemptOutcome → String
  | .httpErr _ d => d
  | .netErr r => r
  | _ => ""

/-- `last_error` recorded by the retrieval-service and shared embed loops
after one failed attempt. -/
def outcomeLastError : AttemptOutcome → String
  | .httpErr s d => "http " ++ toString s ++ ": " ++ d
  | .netErr r => "network: " ++ r
  | .badJson => "invalid json"
  | .ok => ""

/-- Closure invariant of the per-file extraction state: the file node is
present, every local-symbol binding points at an emitted node, and every edge
has both endpoints among the emitted nodes and one of the three edge kinds. -/
def StInv (fid : String) (st : ExtractSt) : Prop :=
  (∃ n ∈ st.nodes, n.id = fid ∧ n.type = "file") ∧
  (∀ p ∈ st.locals, ∃ n ∈ st.nodes, n.id = p.2) ∧
  (∀ e ∈ st.edges,
    (∃ n ∈ st.nodes, n.id = e.1) ∧ (∃ n ∈ st.nodes, n.id = e.2.1) ∧
    (e.2.2 = "contains" ∨ e.2.2 = "imports" ∨ e.2.2 = "calls"))

/-- The §8.5 record invariant: completion implies full progress, and failure
implies a non-empty error text. -/
def JobInv (s : Job) : Prop :=
  (s.status = "completed" → s.progress = 100) ∧
  (s.status = "failed" → ∃ m, s.error = some m ∧ m ≠ "")

/-- A sample raw KG payload: an invalid relation type and an out-of-range
confidence value. -/
def kgSampleRaw : List (String × PyVal) :=
  [("relationships", PyVal.list
    [PyVal.dict [("source", .str "A"), ("target", .str "B"),
      ("relation_type", .str "OWNS"), ("confidence", .num (mkRat 7 2))]])]

/-- Sort key of an emitted edge object: the lexicographic order on
`(source, target, kind)`. -/
def factEdgeKey (e : FactEdge) : Lex (String × Lex (String × String)) :=
  toLex (e.source, toLex (e.target, e.type))

/-- A one-import Python source tree used by concrete witnesses. -/
def wTree : TSNode :=
  .mk "module" "import os" [(none, .mk "import_statement" "import os" [])]

/-- The corresponding source file record. -/
def wFile : SourceFile :=
  { relPath := "a.py", ext := ".py", readOk := true, text := "import os",
    tree := wTree }

/-- A second, empty source file used by the determinism witness. -/
def wFile2 : SourceFile :=
  { relPath := "b.py", ext := ".py", readOk := true, text := "",
    tree := .mk "module" "" [] }

/-! # Theorems -/

/-- A string with a non-empty left part is non-empty. -/
theorem str_append_ne_empty (a b : String) (ha : a ≠ "") : a ++ b ≠ "" := by
  intro h
  apply ha
  have hd : a.data ++ b.data = ([] : List Char) := by
    simpa [String.data_append] using congrArg String.data h
  have h1 : a.data = [] := (List.append_eq_nil.mp hd).1
  apply String.ext
  simpa using h1

/-- Every `EmbedStepFailed` message is non-empty. -/
theorem embed_message_ne (e : EmbedStepError) : e.message ≠ "" := by
  unfold EmbedStepError.message
  apply str_append_ne_empty
  cases hb : e.nonRetryable <;> simp

/-- Every worker `RuntimeError` message is non-empty. -/
theorem runtime_message_ne (e : RuntimeErr) : e.message ≠ "" := by
  cases e <;> simp only [RuntimeErr.message] <;> (apply str_append_ne_empty; decide)

/-- Every step-exception message is non-empty. -/
theorem stepExc_message_ne (e : StepExc) : e.message ≠ "" := by
  cases e with
  | embedStepFailed eo => simpa [StepExc.message] using embed_message_ne eo
  | runtime r => simpa [StepExc.message] using runtime_message_ne r

/-- C7: a pipeline task invoked on a completed or running job returns that
status and leaves the record unchanged; on any other status the claim
transaction sets `status=running`, clears the error, sets
`current_step=INGEST` and raises `progress` to at least 1 (leaving `attempts`
untouched). -/
theorem claim_C7 (j : Job) :
    (j.status = "completed" ∨ j.status = "running" → claimStep j = (j, j.status)) ∧
    (j.status ≠ "completed" → j.status ≠ "running" →
      (claimStep j).1.status = "running" ∧
      (claimStep j).1.error = none ∧
      (claimStep j).1.currentStep = some "INGEST" ∧
      (claimStep j).1.progress = max j.progress 1 ∧
      1 ≤ (claimStep j).1.progress ∧
      (claimStep j).1.attempts = j.attempts ∧
      (claimStep j).2 = "claimed") := by
  constructor
  · rintro (hc | hr)
    · simp [claimStep, hc]
    · simp [claimStep, hr]
  · intro hc hr
    simp [claimStep, hc, hr]

/-- Witness for C7 at a completed job and at the freshly created job. -/
theorem claim_C7_witness :
    claimStep doneJob = (doneJob, "completed") ∧
    (claimStep initJob).1.status = "running" ∧
    (claimStep initJob).1.error = none ∧
    (claimStep initJob).1.currentStep = some "INGEST" ∧
    1 ≤ (claimStep initJob).1.progress := by
  refine ⟨(claim_C7 _).1 (Or.inl rfl), ?_⟩
  have h := (claim_C7 initJob).2 (by decide) (by decide)
  exact ⟨h.1, h.2.1, h.2.2.1, h.2.2.2.2.1⟩

/-- C4: on a step exception the engine increments `attempts` and records the
error text; the embedding-exhaustion class fails immediately with no requeue;
otherwise the job is requeued while the incremented `attempts` is below
`MAX_ATTEMPTS` and failed once it reaches it. -/
theorem claim_C4 (j : Job) (e : StepExc) :
    (handleStepFailure j e).1.attempts = j.attempts + 1 ∧
    (handleStepFailure j e).1.error = some e.message ∧
    (e.isEmbedStepFailed = true →
      (handleStepFailure j e).1.status = "failed" ∧ (handleStepFailure j e).2 = false) ∧
    (e.isEmbedStepFailed = false →
      (j.attempts + 1 < MAX_ATTEMPTS →
        (handleStepFailure j e).1.status = "queued" ∧ (handleStepFailure j e).2 = true) ∧
      (MAX_ATTEMPTS ≤ j.attempts + 1 →
        (handleStepFailure j e).1.status = "failed" ∧ (handleStepFailure j e).2 = false)) := by
  unfold handleStepFailure
  refine ⟨?_, ?_, ?_, ?_⟩ <;>
    cases he : e.isEmbedStepFailed <;>
      simp only [he, Bool.true_eq_false, Bool.false_eq_true, if_true, if_false,
        reduceIte] <;>
    (try split_ifs) <;> (try simp_all)

/-- Witness for C4: a non-embed failure on a fresh job is requeued; an embed
failure is failed outright. -/
theorem claim_C4_witness :
    (handleStepFailure initJob (.runtime .zipTooManyFiles)).1.attempts =
      initJob.attempts + 1 ∧
    (handleStepFailure initJob (.runtime .zipTooManyFiles)).1.status = "queued" ∧
    (handleStepFailure initJob (.runtime .zipTooManyFiles)).2 = true ∧
    (handleStepFailure initJob
      (.embedStepFailed ⟨1, some 401, "", true⟩)).1.status = "failed" ∧
    (handleStepFailure initJob (.embedStepFailed ⟨1, some 401, "", true⟩)).2 = false := by
  have h1 := claim_C4 initJob (.runtime .zipTooManyFiles)
  have h2 := claim_C4 initJob (.embedStepFailed ⟨1, some 401, "", true⟩)
  have h1q := (h1.2.2.2 rfl).1 (by decide)
  have h2f := h2.2.2.1 rfl
  exact ⟨h1.1, h1q.1, h1q.2, h2f.1, h2f.2⟩

/-- C2: an HTTP 401 on the first embed attempt makes the embed step fail
immediately (one attempt used, independent of what later attempts would have
returned), and the engine then marks the job failed with no requeue. -/
theorem claim_C2 (maxRetries : Nat) (oracle : Nat → AttemptOutcome)
    (detail : String) (j : Job)
    (hmax : 1 ≤ maxRetries) (h401 : oracle 1 = .httpErr 401 detail) :
    runEmbedPipeline maxRetries oracle = .error ⟨1, some 401, detail, true⟩ ∧
    (handleStepFailure j (.embedStepFailed ⟨1, some 401, detail, true⟩)).1.status =
      "failed" ∧
    (handleStepFailure j (.embedStepFailed ⟨1, some 401, detail, true⟩)).2 = false := by
  obtain ⟨r, rfl⟩ : ∃ r, maxRetries = r + 1 := ⟨maxRetries - 1, by omega⟩
  refine ⟨?_, by simp [handleStepFailure, StepExc.isEmbedStepFailed], by
    simp [handleStepFailure, StepExc.isEmbedStepFailed]⟩
  unfold runEmbedPipeline pipelineEmbedGo
  rw [h401]
  simp [TRANSIENT_EMBED_HTTP_STATUSES]

/-- Witness for C2 with a budget of 10 attempts. -/
theorem claim_C2_witness :
    runEmbedPipeline 10 (fun _ => .httpErr 401 "invalid_api_key") =
      .error ⟨1, some 401, "invalid_api_key", true⟩ ∧
    (handleStepFailure initJob
      (.embedStepFailed ⟨1, some 401, "invalid_api_key", true⟩)).1.status = "failed" ∧
    (handleStepFailure initJob
      (.embedStepFailed ⟨1, some 401, "invalid_api_key", true⟩)).2 = false :=
  claim_C2 10 (fun _ => .httpErr 401 "invalid_api_key") "invalid_api_key" initJob
    (by decide) rfl

/-- `attempts` never decreases across an engine transaction. -/
theorem engine_attempts_mono : ∀ s s' : Job, EngineStep s s' → s.attempts ≤ s'.attempts := by
  intro s s' h
  cases h with
  | claim hc hr => simp
  | stepOk st m hm hrun => simp
  | finalOk hrun => simp
  | stepFail e hrun =>
      simp only [handleStepFailure]
      split_ifs <;> simp_arith
  | maxRetriesExceeded e hq => simp

/-- Every engine transaction preserves the record invariant. -/
theorem engine_preserves_inv (s s' : Job) (h : EngineStep s s') (_hi : JobInv s) :
    JobInv s' := by
  cases h with
  | claim hc hr =>
      exact ⟨fun hst => absurd (show ("running" : String) = "completed" from hst)
          (by decide),
        fun hst => absurd (show ("running" : String) = "failed" from hst) (by decide)⟩
  | stepOk st m hm hrun =>
      refine ⟨fun hst => ?_, fun hst => ?_⟩
      · have h2 : s.status = "completed" := hst
        rw [hrun] at h2
        exact absurd h2 (by decide)
      · have h2 : s.status = "failed" := hst
        rw [hrun] at h2
        exact absurd h2 (by decide)
  | finalOk hrun =>
      exact ⟨fun _ => rfl,
        fun hst => absurd (show ("completed" : String) = "failed" from hst) (by decide)⟩
  | stepFail e hrun =>
      simp only [handleStepFailure]
      split_ifs with h1 h2
      · exact ⟨fun hst => absurd (show ("failed" : String) = "completed" from hst)
            (by decide),
          fun _ => ⟨e.message, rfl, stepExc_message_ne e⟩⟩
      · exact ⟨fun hst => absurd (show ("failed" : String) = "completed" from hst)
            (by decide),
          fun _ => ⟨e.message, rfl, stepExc_message_ne e⟩⟩
      · exact ⟨fun hst => absurd (show ("queued" : String) = "completed" from hst)
            (by decide),
          fun hst => absurd (show ("queued" : String) = "failed" from hst) (by decide)⟩
  | maxRetriesExceeded e hq =>
      exact ⟨fun hst => absurd (show ("failed" : String) = "completed" from hst)
          (by decide),
        fun _ => ⟨e.message, rfl, stepExc_message_ne e⟩⟩

/-- C8: across engine transitions `attempts` is monotonically non-decreasing,
and in every state reachable from a freshly created job record,
`status=completed` implies `progress=100` and `status=failed` implies a
non-empty error text. -/
theorem claim_C8 :
    (∀ s s' : Job, EngineStep s s' → s.attempts ≤ s'.attempts) ∧
    (∀ s : Job, JobReachable s →
      (s.status = "completed" → s.progress = 100) ∧
      (s.status = "failed" → ∃ m, s.error = some m ∧ m ≠ "")) := by
  refine ⟨engine_attempts_mono, fun s h => ?_⟩
  unfold JobReachable at h
  induction h with
  | refl =>
      exact ⟨fun hst => absurd (show ("queued" : String) = "completed" from hst)
          (by decide),
        fun hst => absurd (show ("queued" : String) = "failed" from hst) (by decide)⟩
  | tail hsteps hstep ih => exact engine_preserves_inv _ _ hstep ih

/-- Witness for C8: the claim transition from the initial record, and the
invariant at the initial record itself. -/
theorem claim_C8_witness :
    initJob.attempts ≤
      (Job.mk "running" (max initJob.progress 1) (some "INGEST") initJob.attempts
        none).attempts ∧
    (initJob.status = "completed" → initJob.progress = 100) ∧
    (initJob.status = "failed" → ∃ m, initJob.error = some m ∧ m ≠ "") :=
  ⟨claim_C8.1 initJob _ (EngineStep.claim initJob (by decide) (by decide)),
   claim_C8.2 initJob Relation.ReflTransGen.refl⟩

/-- C1 counterexample: with a full budget of 10 attempts, the pipeline embed
step (`_run_embed` in `job_runner.py`) fails on the very first HTTP 429 or
HTTP 500 instead of retrying — its transient set is only 502/503/504 — so the
claim's retryable classes do not hold for every §4.D client. -/
theorem claim_C1_cex :
    runEmbedPipeline 10 (fun _ => .httpErr 429 "rate limited") =
      .error ⟨1, some 429, "rate limited", true⟩ ∧
    runEmbedPipeline 10 (fun _ => .httpErr 500 "server error") =
      .error ⟨1, some 500, "server error", true⟩ := ⟨rfl, rfl⟩

/-- C1 (amended): with budget remaining (`attempt < maxRetries`), each embed
client makes another attempt exactly on its own retryable class: the pipeline
embed step on HTTP 502/503/504 and network errors / timeouts (it never parses
the response body); the retrieval-service question embedder on HTTP
429/500/502/503/504 and network errors / timeouts (malformed JSON fails
immediately); the shared embed utility on HTTP 429/500/502/503/504, network
errors / timeouts, and malformed JSON. -/
theorem claim_C1_amended (maxRetries attempt r : Nat)
    (oracle : Nat → AttemptOutcome) (ls : Option Nat) (ld le₁ le₂ : String)
    (hlt : attempt < maxRetries) :
    (pipelineRetryable (oracle attempt) →
      pipelineEmbedGo maxRetries oracle (r + 1) attempt ls ld =
        pipelineEmbedGo maxRetries oracle r (attempt + 1)
          (outcomeStatus (oracle attempt)) (outcomeDetail (oracle attempt))) ∧
    (retrievalRetryable (oracle attempt) →
      retrievalEmbedGo maxRetries oracle (r + 1) attempt le₁ =
        retrievalEmbedGo maxRetries oracle r (attempt + 1)
          (outcomeLastError (oracle attempt))) ∧
    (sharedRetryable (oracle attempt) →
      sharedEmbedGo maxRetries oracle (r + 1) attempt le₂ =
        sharedEmbedGo maxRetries oracle r (attempt + 1)
          (outcomeLastError (oracle attempt))) := by
  have hnle : ¬ maxRetries ≤ attempt := by omega
  refine ⟨?_, ?_, ?_⟩
  · intro hr
    cases ho : oracle attempt with
    | ok => rw [ho] at hr; exact hr.elim
    | badJson => rw [ho] at hr; exact hr.elim
    | httpErr s d =>
        have hmem : s ∈ TRANSIENT_EMBED_HTTP_STATUSES := by
          have := hr; rw [ho] at this; exact this
        simp [pipelineEmbedGo, ho, hmem, hlt, outcomeStatus, outcomeDetail]
    | netErr reason =>
        simp [pipelineEmbedGo, ho, hlt, outcomeStatus, outcomeDetail]
  · intro hr
    cases ho : oracle attempt with
    | ok => rw [ho] at hr; exact hr.elim
    | badJson => rw [ho] at hr; exact hr.elim
    | httpErr s d =>
        have hmem : s ∈ OPENAI_EMBED_RETRYABLE_STATUS_CODES := by
          have := hr; rw [ho] at this; exact this
        simp only [OPENAI_EMBED_RETRYABLE_STATUS_CODES, List.mem_cons,
          List.mem_singleton, List.not_mem_nil, or_false] at hmem
        rcases hmem with rfl | rfl | rfl | rfl | rfl <;>
          simp [retrievalEmbedGo, ho, hlt, hnle, outcomeLastError,
            OPENAI_EMBED_RETRYABLE_STATUS_CODES]
    | netErr reason =>
        simp [retrievalEmbedGo, ho, hlt, hnle, outcomeLastError]
  · intro hr
    cases ho : oracle attempt with
    | ok => rw [ho] at hr; exact hr.elim
    | badJson =>
        simp [sharedEmbedGo, ho, hnle, outcomeLastError]
    | httpErr s d =>
        have hmem : s ∈ OPENAI_EMBED_RETRYABLE_STATUS_CODES := by
          have := hr; rw [ho] at this; exact this
        simp only [OPENAI_EMBED_RETRYABLE_STATUS_CODES, List.mem_cons,
          List.mem_singleton, List.not_mem_nil, or_false] at hmem
        rcases hmem with rfl | rfl | rfl | rfl | rfl <;>
          simp [sharedEmbedGo, ho, hlt, hnle, outcomeLastError,
            OPENAI_EMBED_RETRYABLE_STATUS_CODES]
    | netErr reason =>
        simp [sharedEmbedGo, ho, hlt, hnle, outcomeLastError]

/-- Witness for C1 (amended): a 503 with budget remaining advances all three
clients to the next attempt. -/
theorem claim_C1_amended_witness :
    (pipelineEmbedGo 2 (fun _ => .httpErr 503 "d") 6 1 none "" =
      pipelineEmbedGo 2 (fun _ => .httpErr 503 "d") 5 2 (some 503) "d") ∧
    (retrievalEmbedGo 2 (fun _ => .httpErr 503 "d") 6 1 "" =
      retrievalEmbedGo 2 (fun _ => .httpErr 503 "d") 5 2
        ("http " ++ toString 503 ++ ": " ++ "d")) ∧
    (sharedEmbedGo 2 (fun _ => .httpErr 503 "d") 6 1 "" =
      sharedEmbedGo 2 (fun _ => .httpErr 503 "d") 5 2
        ("http " ++ toString 503 ++ ": " ++ "d")) := by
  have h := claim_C1_amended 2 1 5 (fun _ => .httpErr 503 "d") none "" "" ""
    (by decide)
  exact ⟨h.1 (by simp [pipelineRetryable, TRANSIENT_EMBED_HTTP_STATUSES]),
    h.2.1 (by simp [retrievalRetryable, OPENAI_EMBED_RETRYABLE_STATUS_CODES]),
    h.2.2 (by simp [sharedRetryable, OPENAI_EMBED_RETRYABLE_STATUS_CODES])⟩

/-- A coerced relation type is always a member of the valid set. -/
theorem coerced_mem (c : String) :
    (if c ∈ VALID_RELATION_TYPES then c else "related") ∈ VALID_RELATION_TYPES := by
  split_ifs with h
  · exact h
  · decide

/-- A defaulted entity type is never empty. -/
theorem default_type_nonempty (t : String) :
    (if t = "" then "unknown" else t) ≠ "" := by
  split_ifs with h
  · decide
  · exact h

/-- Every relation produced by `normRelation` satisfies the normalization
guarantees. -/
theorem normRelation_props (x : PyVal) (r : KgRelation)
    (h : normRelation x = some r) :
    r.source ≠ "" ∧ r.target ≠ "" ∧ r.relationType ∈ VALID_RELATION_TYPES ∧
    0 ≤ r.confidence ∧ r.confidence ≤ 1 := by
  cases x with
  | dict kvs =>
      simp only [normRelation] at h
      split at h
      · exact absurd h (by simp)
      · rename_i hcond
        push_neg at hcond
        have h' := Option.some.inj h
        subst h'
        exact ⟨hcond.1, hcond.2, coerced_mem _, le_max_left 0 _,
          max_le (by norm_num) (min_le_right _ _)⟩
  | str s => exact absurd h (by simp [normRelation])
  | num q => exact absurd h (by simp [normRelation])
  | bool b => exact absurd h (by simp [normRelation])
  | pynone => exact absurd h (by simp [normRelation])
  | list xs => exact absurd h (by simp [normRelation])

/-- Every entity produced by `normEntity` has a non-empty name and type. -/
theorem normEntity_props (x : PyVal) (p : String × String)
    (h : normEntity x = some p) : p.1 ≠ "" ∧ p.2 ≠ "" := by
  cases x with
  | dict kvs =>
      simp only [normEntity] at h
      split at h
      · exact absurd h (by simp)
      · rename_i hname
        have h' := Option.some.inj h
        subst h'
        exact ⟨hname, default_type_nonempty _⟩
  | str s => exact absurd h (by simp [normEntity])
  | num q => exact absurd h (by simp [normEntity])
  | bool b => exact absurd h (by simp [normEntity])
  | pynone => exact absurd h (by simp [normEntity])
  | list xs => exact absurd h (by simp [normEntity])

/-- C10: `normalize_kg_extract` is total by construction, and every relation
it returns has a non-empty source and target, a relation type inside
`_VALID_RELATION_TYPES` (unrecognized or empty types coerce to `related`), and
a confidence clamped into [0, 1] (0.5 when missing or non-numeric); every
returned entity has a non-empty name and type.  Entries that are not dicts or
lack a name / source / target never reach the output. -/
theorem claim_C10 (raw : List (String × PyVal)) :
    (∀ r ∈ (normalizeKgExtract raw).2,
      r.source ≠ "" ∧ r.target ≠ "" ∧ r.relationType ∈ VALID_RELATION_TYPES ∧
      0 ≤ r.confidence ∧ r.confidence ≤ 1) ∧
    (∀ p ∈ (normalizeKgExtract raw).1, p.1 ≠ "" ∧ p.2 ≠ "") := by
  constructor
  · intro r hr
    simp only [normalizeKgExtract] at hr
    split at hr
    · obtain ⟨x, _, hx⟩ := List.mem_filterMap.mp hr
      exact normRelation_props x r hx
    · exact absurd hr (List.not_mem_nil r)
  · intro p hp
    simp only [normalizeKgExtract] at hp
    split at hp
    · obtain ⟨x, _, hx⟩ := List.mem_filterMap.mp hp
      exact normEntity_props x p hx
    · exact absurd hp (List.not_mem_nil p)

/-- Witness for C10: an invalid relation type coerces to `related` and an
out-of-range confidence clamps to 1. -/
theorem claim_C10_witness :
    (KgRelation.mk "A" "B" "related" 1 "").source ≠ "" ∧
    (KgRelation.mk "A" "B" "related" 1 "").target ≠ "" ∧
    (KgRelation.mk "A" "B" "related" 1 "").relationType ∈ VALID_RELATION_TYPES ∧
    0 ≤ (KgRelation.mk "A" "B" "related" 1 "").confidence ∧
    (KgRelation.mk "A" "B" "related" 1 "").confidence ≤ 1 :=
  (claim_C10 kgSampleRaw).1 (KgRelation.mk "A" "B" "related" 1 "") (by decide)

/-- If the validation pass accepts an entry list, every entry resolves inside
the extraction root and none is a symlink. -/
theorem validate_ok_safe (root : List String) :
    ∀ (entries : List ZipEntry) (fc tb : Nat),
      validateEntries root entries fc tb = .ok () →
      ∀ e ∈ entries, memberWithin root e.filename = true ∧ e.isSymlink = false := by
  intro entries
  induction entries with
  | nil =>
      intro fc tb _ e he
      exact absurd he (List.not_mem_nil e)
  | cons a rest ih =>
      intro fc tb h e he
      rcases List.mem_cons.mp he with rfl | hmem
      · simp only [validateEntries] at h
        split_ifs at h with h1 h2 h3 h4 h5 <;>
          first
            | exact absurd h (by simp)
            | exact ⟨by simpa using h1, by simpa using h2⟩
      · simp only [validateEntries] at h
        split_ifs at h with h1 h2 h3 h4 h5 <;>
          first
            | exact absurd h (by simp)
            | exact ih _ _ h e hmem

/-- C5: for an archive containing an entry whose resolved path escapes the
destination (or a symlink entry), extraction fails with an error before any
file is materialized (`safeExtractZip` returns an error), the temporary
directory is removed, and the destination repository directory is absent
after the call. -/
theorem claim_C5 (fs : WorkerFS) (tmpRoot : List String)
    (hrepo : fs.repoDir = none) (hzip : fs.zipExists = true)
    (hbad : ∃ e ∈ fs.zipEntries,
      memberWithin tmpRoot e.filename = false ∨ e.isSymlink = true) :
    ∃ err, ingestZip fs tmpRoot = (.error err, { fs with tmpDir := none }) ∧
      ({ fs with tmpDir := none } : WorkerFS).repoDir = none ∧
      safeExtractZip fs.zipSize fs.zipEntries tmpRoot = .error err := by
  obtain ⟨e0, he0, hbad0⟩ := hbad
  have hval : ∀ fc tb, ¬ validateEntries tmpRoot fs.zipEntries fc tb = .ok () := by
    intro fc tb hok
    have hsafe := validate_ok_safe tmpRoot fs.zipEntries fc tb hok e0 he0
    rcases hbad0 with hb | hb
    · rw [hsafe.1] at hb
      exact absurd hb (by decide)
    · rw [hsafe.2] at hb
      exact absurd hb (by decide)
  cases hres : safeExtractZip fs.zipSize fs.zipEntries tmpRoot with
  | ok files =>
      exfalso
      unfold safeExtractZip at hres
      by_cases hsz : MAX_ZIP_MB * MB < fs.zipSize
      · rw [if_pos hsz] at hres
        exact Except.noConfusion hres
      · rw [if_neg hsz] at hres
        cases hv : validateEntries tmpRoot fs.zipEntries 0 0 with
        | ok u =>
            cases u
            exact hval 0 0 hv
        | error e =>
            rw [hv] at hres
            exact Except.noConfusion hres
  | error err =>
      refine ⟨err, ?_, by simp [hrepo], rfl⟩
      unfold ingestZip
      simp [hrepo, hzip, hres]

/-- Witness for C5: a zip-slip entry (`../etc/passwd`) makes ingest fail and
leaves the destination absent. -/
theorem claim_C5_witness :
    ∃ err,
      ingestZip
        { repoDir := none, zipExists := true, zipPath := "uploads/r.zip",
          zipSize := 10, zipEntries := [⟨"../etc/passwd", false, false, 3⟩],
          tmpDir := none } ["data", "repos", ".r.tmp"] =
        (.error err,
          { repoDir := none, zipExists := true, zipPath := "uploads/r.zip",
            zipSize := 10, zipEntries := [⟨"../etc/passwd", false, false, 3⟩],
            tmpDir := none }) ∧
      (WorkerFS.mk none true "uploads/r.zip" 10 [⟨"../etc/passwd", false, false, 3⟩]
        none).repoDir = none ∧
      safeExtractZip 10 [⟨"../etc/passwd", false, false, 3⟩]
        ["data", "repos", ".r.tmp"] = .error err := by
  have h := claim_C5
    { repoDir := none, zipExists := true, zipPath := "uploads/r.zip",
      zipSize := 10, zipEntries := [⟨"../etc/passwd", false, false, 3⟩],
      tmpDir := none } ["data", "repos", ".r.tmp"] rfl rfl
    ⟨⟨"../etc/passwd", false, false, 3⟩, by decide, Or.inl (by decide)⟩
  exact h

theorem optMax_none_right (a : Option ℚ) : optMax a none = a := by
  cases a <;> rfl

theorem optMax_assoc (a b c : Option ℚ) :
    optMax (optMax a b) c = optMax a (optMax b c) := by
  cases a <;> cases b <;> cases c <;> simp [optMax, max_assoc]

theorem updMax_eq_optMax (a : Option ℚ) (s : ℚ) : updMax a s = optMax a (some s) := by
  cases a with
  | none => rfl
  | some p =>
      simp only [updMax, optMax]
      rcases lt_trichotomy p s with h | h | h
      · rw [if_pos h, max_eq_right h.le]
      · subst h
        rw [if_neg (lt_irrefl p), max_self]
      · rw [if_neg (not_lt.mpr h.le), max_eq_left h.le]

theorem bestScore_cons (h : Hit) (rest : List Hit) (id : String) :
    bestScore (h :: rest) id =
      if h.nodeId == id then optMax (some h.score) (bestScore rest id)
      else bestScore rest id := by
  cases hh : (h.nodeId == id) <;> simp [bestScore, hh, maxScore?]

theorem lookup_append (l₁ l₂ : List (String × MergedEntry)) (k : String) :
    (l₁ ++ l₂).lookup k = ((l₁.lookup k).or (l₂.lookup k)) := by
  induction l₁ with
  | nil => simp [List.lookup]
  | cons a rest ih =>
      obtain ⟨ka, va⟩ := a
      cases hk : (k == ka) <;> simp [List.lookup, hk, ih]

theorem lookup_alModify (m : List (String × MergedEntry)) (k : String)
    (f : MergedEntry → MergedEntry) (id : String) :
    (alModify m k f).lookup id =
      if id = k then (m.lookup id).map f else m.lookup id := by
  induction m with
  | nil => simp [alModify, List.lookup]
  | cons a rest ih =>
      obtain ⟨ka, va⟩ := a
      have hstep : alModify ((ka, va) :: rest) k f =
          (if ka = k then (ka, f va) else (ka, va)) :: alModify rest k f := by
        simp only [alModify, List.map_cons]
      by_cases h1 : ka = k
      · subst h1
        rw [hstep, if_pos rfl]
        by_cases h2 : id = ka
        · subst h2
          rw [if_pos rfl]
          simp [List.lookup]
        · rw [if_neg h2]
          have hb : (id == ka) = false := by simpa using h2
          simp [List.lookup, hb, ih, h2]
      · rw [hstep, if_neg h1]
        by_cases h2 : id = ka
        · have hik : ¬ id = k := by rw [h2]; exact h1
          rw [if_neg hik]
          have hb : (id == ka) = true := by simpa using h2
          simp [List.lookup, hb]
        · have hb : (id == ka) = false := by simpa using h2
          simp [List.lookup, hb, ih]

theorem lookup_setdefault (m : List (String × MergedEntry)) (k id : String) :
    (alSetdefault m k).lookup id =
      if id = k then some ((m.lookup k).getD ⟨none, none⟩) else m.lookup id := by
  unfold alSetdefault
  cases ho : m.lookup k with
  | some e =>
      rw [if_pos (by simp [ho])]
      by_cases hik : id = k
      · subst hik
        simp [ho]
      · simp [hik]
  | none =>
      rw [if_neg (by simp [ho])]
      rw [lookup_append]
      by_cases hik : id = k
      · subst hik
        simp [ho, List.lookup]
      · simp [hik, List.lookup, Option.or]
        cases hl : m.lookup id <;> simp [hl, show (id == k) = false by simpa using hik]

theorem entryAt_keywordStep (m : List (String × MergedEntry)) (h : Hit)
    (id : String) (hid : id ≠ "") :
    entryAt (keywordStep m h) id =
      if h.nodeId = id then
        { entryAt m id with keyword := updMax (entryAt m id).keyword h.score }
      else entryAt m id := by
  unfold keywordStep
  by_cases hz : h.nodeId = ""
  · rw [if_pos hz]
    rw [if_neg (by rw [hz]; exact fun hh => hid hh.symm)]
  · rw [if_neg hz]
    unfold entryAt
    rw [lookup_alModify, lookup_setdefault]
    by_cases he : id = h.nodeId
    · rw [if_pos he, if_pos he, if_pos he.symm, he]
      simp
    · rw [if_neg he, if_neg he, if_neg (fun hh => he hh.symm)]

theorem entryAt_semanticStep (m : List (String × MergedEntry)) (h : Hit)
    (id : String) (hid : id ≠ "") :
    entryAt (semanticStep m h) id =
      if h.nodeId = id then
        { entryAt m id with semantic := updMax (entryAt m id).semantic h.score }
      else entryAt m id := by
  unfold semanticStep
  by_cases hz : h.nodeId = ""
  · rw [if_pos hz]
    rw [if_neg (by rw [hz]; exact fun hh => hid hh.symm)]
  · rw [if_neg hz]
    unfold entryAt
    rw [lookup_alModify, lookup_setdefault]
    by_cases he : id = h.nodeId
    · rw [if_pos he, if_pos he, if_pos he.symm, he]
      simp
    · rw [if_neg he, if_neg he, if_neg (fun hh => he hh.symm)]

theorem entry_keywordPhase (hits : List Hit) :
    ∀ (m : List (String × MergedEntry)) (id : String), id ≠ "" →
      entryAt (hits.foldl keywordStep m) id =
        ⟨(entryAt m id).semantic,
          optMax (entryAt m id).keyword (bestScore hits id)⟩ := by
  induction hits with
  | nil =>
      intro m id _
      simp [bestScore, maxScore?, optMax_none_right]
  | cons h rest ih =>
      intro m id hid
      rw [List.foldl_cons, ih _ id hid, bestScore_cons, entryAt_keywordStep m h id hid]
      by_cases hh : h.nodeId = id
      · rw [if_pos hh, if_pos (by simpa using hh)]
        simp only [updMax_eq_optMax, optMax_assoc]
      · rw [if_neg hh, if_neg (by simpa using hh)]

theorem entry_semanticPhase (hits : List Hit) :
    ∀ (m : List (String × MergedEntry)) (id : String), id ≠ "" →
      entryAt (hits.foldl semanticStep m) id =
        ⟨optMax (entryAt m id).semantic (bestScore hits id),
          (entryAt m id).keyword⟩ := by
  induction hits with
  | nil =>
      intro m id _
      simp [bestScore, maxScore?, optMax_none_right]
  | cons h rest ih =>
      intro m id hid
      rw [List.foldl_cons, ih _ id hid, bestScore_cons, entryAt_semanticStep m h id hid]
      by_cases hh : h.nodeId = id
      · rw [if_pos hh, if_pos (by simpa using hh)]
        simp only [updMax_eq_optMax, optMax_assoc]
      · rw [if_neg hh, if_neg (by simpa using hh)]

/-- The merged entry stored under any non-empty id holds exactly the maximum
keyword and semantic scores the two hit lists assign to it. -/
theorem entry_mergedOf (keywordHits semanticHits : List Hit) (id : String)
    (hid : id ≠ "") :
    entryAt (mergedOf keywordHits semanticHits) id =
      ⟨bestScore semanticHits id, bestScore keywordHits id⟩ := by
  unfold mergedOf
  rw [entry_semanticPhase _ _ id hid, entry_keywordPhase _ _ id hid]
  simp [entryAt, optMax]

theorem keys_alModify (m : List (String × MergedEntry)) (k : String)
    (f : MergedEntry → MergedEntry) :
    (alModify m k f).map Prod.fst = m.map Prod.fst := by
  induction m with
  | nil => rfl
  | cons a rest ih =>
      obtain ⟨ka, va⟩ := a
      simp only [alModify, List.map_cons] at ih ⊢
      by_cases h1 : ka = k
      · rw [if_pos h1]
        simpa using ih
      · rw [if_neg h1]
        simpa using ih

theorem not_mem_of_lookup_none (m : List (String × MergedEntry)) (k : String)
    (h : m.lookup k = none) : k ∉ m.map Prod.fst := by
  induction m with
  | nil => simp
  | cons a rest ih =>
      obtain ⟨ka, va⟩ := a
      cases hb : (k == ka) with
      | true => simp [List.lookup, hb] at h
      | false =>
          simp only [List.lookup, hb] at h
          intro hmem
          rcases (by simpa using hmem : k = ka ∨ k ∈ rest.map Prod.fst) with rfl | hk
          · simp at hb
          · exact ih h hk

theorem keys_inv_kwStep (m : List (String × MergedEntry)) (h : Hit)
    (hn : (m.map Prod.fst).Nodup) (hne : ∀ kk ∈ m.map Prod.fst, kk ≠ "") :
    ((keywordStep m h).map Prod.fst).Nodup ∧
    ∀ kk ∈ (keywordStep m h).map Prod.fst, kk ≠ "" := by
  unfold keywordStep
  by_cases hz : h.nodeId = ""
  · rw [if_pos hz]
    exact ⟨hn, hne⟩
  · rw [if_neg hz, keys_alModify]
    unfold alSetdefault
    by_cases hs : (m.lookup h.nodeId).isSome
    · rw [if_pos hs]
      exact ⟨hn, hne⟩
    · rw [if_neg hs]
      rw [List.map_append]
      have hnm : h.nodeId ∉ m.map Prod.fst :=
        not_mem_of_lookup_none m h.nodeId (Option.not_isSome_iff_eq_none.mp hs)
      constructor
      · simp [List.nodup_append, hn, hnm]
      · intro kk hkk
        rcases List.mem_append.mp hkk with hk | hk
        · exact hne kk hk
        · rw [show kk = h.nodeId by simpa using hk]
          exact hz

theorem keys_inv_semStep (m : List (String × MergedEntry)) (h : Hit)
    (hn : (m.map Prod.fst).Nodup) (hne : ∀ kk ∈ m.map Prod.fst, kk ≠ "") :
    ((semanticStep m h).map Prod.fst).Nodup ∧
    ∀ kk ∈ (semanticStep m h).map Prod.fst, kk ≠ "" := by
  unfold semanticStep
  by_cases hz : h.nodeId = ""
  · rw [if_pos hz]
    exact ⟨hn, hne⟩
  · rw [if_neg hz, keys_alModify]
    unfold alSetdefault
    by_cases hs : (m.lookup h.nodeId).isSome
    · rw [if_pos hs]
      exact ⟨hn, hne⟩
    · rw [if_neg hs]
      rw [List.map_append]
      have hnm : h.nodeId ∉ m.map Prod.fst :=
        not_mem_of_lookup_none m h.nodeId (Option.not_isSome_iff_eq_none.mp hs)
      constructor
      · simp [List.nodup_append, hn, hnm]
      · intro kk hkk
        rcases List.mem_append.mp hkk with hk | hk
        · exact hne kk hk
        · rw [show kk = h.nodeId by simpa using hk]
          exact hz

theorem keys_inv_kwFold (hits : List Hit) :
    ∀ m : List (String × MergedEntry),
    (m.map Prod.fst).Nodup → (∀ kk ∈ m.map Prod.fst, kk ≠ "") →
    ((hits.foldl keywordStep m).map Prod.fst).Nodup ∧
    ∀ kk ∈ (hits.foldl keywordStep m).map Prod.fst, kk ≠ "" := by
  induction hits with
  | nil => intro m hn hne; exact ⟨hn, hne⟩
  | cons h rest ih =>
      intro m hn hne
      rw [List.foldl_cons]
      have hstep := keys_inv_kwStep m h hn hne
      exact ih _ hstep.1 hstep.2

theorem keys_inv_semFold (hits : List Hit) :
    ∀ m : List (String × MergedEntry),
    (m.map Prod.fst).Nodup → (∀ kk ∈ m.map Prod.fst, kk ≠ "") →
    ((hits.foldl semanticStep m).map Prod.fst).Nodup ∧
    ∀ kk ∈ (hits.foldl semanticStep m).map Prod.fst, kk ≠ "" := by
  induction hits with
  | nil => intro m hn hne; exact ⟨hn, hne⟩
  | cons h rest ih =>
      intro m hn hne
      rw [List.foldl_cons]
      have hstep := keys_inv_semStep m h hn hne
      exact ih _ hstep.1 hstep.2

/-- The merged dict has distinct, non-empty keys. -/
theorem keys_inv_merged (keywordHits semanticHits : List Hit) :
    ((mergedOf keywordHits semanticHits).map Prod.fst).Nodup ∧
    ∀ kk ∈ (mergedOf keywordHits semanticHits).map Prod.fst, kk ≠ "" := by
  unfold mergedOf
  have hkw := keys_inv_kwFold keywordHits [] (by simp) (by simp)
  exact keys_inv_semFold semanticHits _ hkw.1 hkw.2

theorem lookup_of_mem_nodup (m : List (String × MergedEntry))
    (hn : (m.map Prod.fst).Nodup) (k : String) (e : MergedEntry)
    (hm : (k, e) ∈ m) : m.lookup k = some e := by
  induction m with
  | nil => cases hm
  | cons a rest ih =>
      obtain ⟨ka, va⟩ := a
      rcases List.mem_cons.mp hm with heq | hmem
      · obtain ⟨rfl, rfl⟩ := Prod.mk.injEq k e ka va |>.mp heq
        simp [List.lookup]
      · have hk : k ∈ rest.map Prod.fst := List.mem_map_of_mem Prod.fst hmem
        have hn2 : (ka :: rest.map Prod.fst).Nodup := hn
        have hcons := List.nodup_cons.mp hn2
        have hne : (k == ka) = false := by
          simp only [beq_eq_false_iff_ne, ne_eq]
          rintro rfl
          exact hcons.1 hk
        simp only [List.lookup, hne]
        exact ih hcons.2 hmem

theorem insertDesc_perm (x : RankedItem) (l : List RankedItem) :
    List.Perm (insertDesc x l) (x :: l) := by
  induction l with
  | nil => exact List.Perm.refl _
  | cons y ys ih =>
      unfold insertDesc
      by_cases hxy : x.score ≤ y.score
      · rw [if_pos hxy]
        exact (ih.cons y).trans (List.Perm.swap x y ys)
      · rw [if_neg hxy]

theorem sortDesc_aux_perm (l : List RankedItem) :
    ∀ acc, List.Perm (l.foldl (fun a x => insertDesc x a) acc) (acc ++ l) := by
  induction l with
  | nil => intro acc; simp
  | cons x rest ih =>
      intro acc
      rw [List.foldl_cons]
      refine ((ih (insertDesc x acc)).trans ?_)
      refine (((insertDesc_perm x acc).append_right rest).trans ?_)
      exact List.perm_middle.symm

theorem sortDesc_perm (l : List RankedItem) : List.Perm (sortDesc l) l := by
  simpa using sortDesc_aux_perm l []

theorem insertDesc_sorted (x : RankedItem) (l : List RankedItem)
    (hs : l.Sorted (fun a b => b.score ≤ a.score)) :
    (insertDesc x l).Sorted (fun a b => b.score ≤ a.score) := by
  induction l with
  | nil => simp [insertDesc]
  | cons y ys ih =>
      rw [List.sorted_cons] at hs
      unfold insertDesc
      by_cases hxy : x.score ≤ y.score
      · rw [if_pos hxy]
        rw [List.sorted_cons]
        refine ⟨fun b hb => ?_, ih hs.2⟩
        rcases List.mem_cons.mp ((insertDesc_perm x ys).mem_iff.mp hb) with rfl | h
        · exact hxy
        · exact hs.1 b h
      · rw [if_neg hxy]
        rw [List.sorted_cons]
        refine ⟨fun b hb => ?_, List.sorted_cons.mpr hs⟩
        rcases List.mem_cons.mp hb with rfl | h
        · exact le_of_lt (lt_of_not_le hxy)
        · exact le_trans (hs.1 b h) (le_of_lt (lt_of_not_le hxy))

theorem sortDesc_sorted (l : List RankedItem) :
    (sortDesc l).Sorted (fun a b => b.score ≤ a.score) := by
  suffices h : ∀ (l acc : List RankedItem),
      acc.Sorted (fun a b => b.score ≤ a.score) →
      (l.foldl (fun a x => insertDesc x a) acc).Sorted (fun a b => b.score ≤ a.score) by
    simpa [sortDesc] using h l [] (by simp)
  intro l
  induction l with
  | nil => intro acc hacc; simpa using hacc
  | cons x rest ih =>
      intro acc hacc
      rw [List.foldl_cons]
      exact ih _ (insertDesc_sorted x acc hacc)

/-- C6: the hybrid retriever's merge keeps, per node id, the maximum keyword
and semantic scores, combines them as `max` with missing scores treated as
−∞ (0 when both are absent — encoded in `combinedScore`), ranks descending by
combined score, and returns at most `top_k` items; on the literal §8 example
the ranking is `[a, c]`. -/
theorem claim_C6 (keywordHits semanticHits : List Hit) (topK : Nat) :
    (∀ it ∈ mergeRank keywordHits semanticHits topK,
      it.nodeId ≠ "" ∧
      it.semantic = bestScore semanticHits it.nodeId ∧
      it.keyword = bestScore keywordHits it.nodeId ∧
      it.score = combinedScore it.semantic it.keyword) ∧
    (mergeRank keywordHits semanticHits topK).Sorted
      (fun a b => b.score ≤ a.score) ∧
    (mergeRank keywordHits semanticHits topK).length ≤ topK ∧
    (mergeRank [⟨"a", mkRat 9 10⟩, ⟨"b", mkRat 6 10⟩]
        [⟨"a", mkRat 8 10⟩, ⟨"c", mkRat 7 10⟩] 2).map RankedItem.nodeId =
      ["a", "c"] := by
  refine ⟨?_, ?_, ?_, by decide⟩
  · intro it hit
    have hit1 : it ∈ sortDesc (rankedOf (mergedOf keywordHits semanticHits)) :=
      List.take_subset _ _ hit
    have hit2 : it ∈ rankedOf (mergedOf keywordHits semanticHits) :=
      (sortDesc_perm _).mem_iff.mp hit1
    simp only [rankedOf] at hit2
    obtain ⟨p, hp, rfl⟩ := List.mem_map.mp hit2
    have hkeys := keys_inv_merged keywordHits semanticHits
    have hid : p.1 ≠ "" := hkeys.2 p.1 (List.mem_map_of_mem Prod.fst hp)
    have hlook : (mergedOf keywordHits semanticHits).lookup p.1 = some p.2 :=
      lookup_of_mem_nodup _ hkeys.1 p.1 p.2 (by simpa using hp)
    have hent : entryAt (mergedOf keywordHits semanticHits) p.1 = p.2 := by
      simp [entryAt, hlook]
    have hme := entry_mergedOf keywordHits semanticHits p.1 hid
    rw [hent] at hme
    exact ⟨hid, by rw [hme], by rw [hme], rfl⟩
  · exact (sortDesc_sorted _).sublist (List.take_sublist _ _)
  · exact List.length_take_le _ _

/-- Witness for C6 on the §8 merge example. -/
theorem claim_C6_witness :
    (RankedItem.mk "a" (some (mkRat 8 10)) (some (mkRat 9 10)) (mkRat 9 10)).nodeId ≠ "" ∧
    (RankedItem.mk "a" (some (mkRat 8 10)) (some (mkRat 9 10)) (mkRat 9 10)).semantic =
      bestScore [⟨"a", mkRat 8 10⟩, ⟨"c", mkRat 7 10⟩] "a" ∧
    (RankedItem.mk "a" (some (mkRat 8 10)) (some (mkRat 9 10)) (mkRat 9 10)).keyword =
      bestScore [⟨"a", mkRat 9 10⟩, ⟨"b", mkRat 6 10⟩] "a" ∧
    (RankedItem.mk "a" (some (mkRat 8 10)) (some (mkRat 9 10)) (mkRat 9 10)).score =
      combinedScore (some (mkRat 8 10)) (some (mkRat 9 10)) :=
  (claim_C6 [⟨"a", mkRat 9 10⟩, ⟨"b", mkRat 6 10⟩]
    [⟨"a", mkRat 8 10⟩, ⟨"c", mkRat 7 10⟩] 2).1
    (RankedItem.mk "a" (some (mkRat 8 10)) (some (mkRat 9 10)) (mkRat 9 10))
    (by decide)

theorem mem_of_lookup_eq_some {α β : Type} [BEq α] [LawfulBEq α]
    {l : List (α × β)} {k : α} {v : β} (h : l.lookup k = some v) : (k, v) ∈ l := by
  induction l with
  | nil => simp [List.lookup] at h
  | cons a rest ih =>
      obtain ⟨ka, va⟩ := a
      cases hb : (k == ka) with
      | true =>
          simp only [List.lookup, hb] at h
          have hk : k = ka := eq_of_beq hb
          subst hk
          have hv : va = v := Option.some.inj h
          subst hv
          exact List.mem_cons_self _ _
      | false =>
          simp only [List.lookup, hb] at h
          exact List.mem_cons_of_mem _ (ih h)

theorem stinv_nodes_append (fid : String) (st : ExtractSt) (nd : FactNode)
    (hinv : StInv fid st) : StInv fid { st with nodes := st.nodes ++ [nd] } := by
  obtain ⟨⟨fn, hfn, hfp⟩, hloc, hedge⟩ := hinv
  refine ⟨⟨fn, List.mem_append_left _ hfn, hfp⟩, ?_, ?_⟩
  · intro p hp
    obtain ⟨n, hn, hid⟩ := hloc p hp
    exact ⟨n, List.mem_append_left _ hn, hid⟩
  · intro e he
    obtain ⟨⟨n1, hn1, h1⟩, ⟨n2, hn2, h2⟩, h3⟩ := hedge e he
    exact ⟨⟨n1, List.mem_append_left _ hn1, h1⟩,
      ⟨n2, List.mem_append_left _ hn2, h2⟩, h3⟩

theorem stinv_edges_append (fid : String) (st : ExtractSt)
    (src tgt k : String)
    (hsrc : ∃ n ∈ st.nodes, n.id = src) (htgt : ∃ n ∈ st.nodes, n.id = tgt)
    (hk : k = "contains" ∨ k = "imports" ∨ k = "calls") (hinv : StInv fid st) :
    StInv fid { st with edges := st.edges ++ [(src, tgt, k)] } := by
  obtain ⟨hfile, hloc, hedge⟩ := hinv
  refine ⟨hfile, hloc, ?_⟩
  intro e he
  rcases List.mem_append.mp he with hmem | hnew
  · exact hedge e hmem
  · rw [show e = (src, tgt, k) by simpa using hnew]
    exact ⟨hsrc, htgt, hk⟩

theorem stinv_def_emit (fid : String) (st : ExtractSt) (nd : FactNode)
    (sym : String) (hinv : StInv fid st) :
    StInv fid
      { nodes := st.nodes ++ [nd]
        edges := st.edges ++ [(fid, nd.id, "contains")]
        locals := (sym, nd.id) :: st.locals } := by
  obtain ⟨⟨fn, hfn, hfp⟩, hloc, hedge⟩ := hinv
  refine ⟨⟨fn, List.mem_append_left _ hfn, hfp⟩, ?_, ?_⟩
  · intro p hp
    rcases List.mem_cons.mp hp with rfl | hmem
    · exact ⟨nd, List.mem_append_right _ (by simp), rfl⟩
    · obtain ⟨n, hn, hid⟩ := hloc p hmem
      exact ⟨n, List.mem_append_left _ hn, hid⟩
  · intro e he
    rcases List.mem_append.mp he with hmem | hnew
    · obtain ⟨⟨n1, hn1, h1⟩, ⟨n2, hn2, h2⟩, h3⟩ := hedge e hmem
      exact ⟨⟨n1, List.mem_append_left _ hn1, h1⟩,
        ⟨n2, List.mem_append_left _ hn2, h2⟩, h3⟩
    · rw [show e = (fid, nd.id, "contains") by simpa using hnew]
      exact ⟨⟨fn, List.mem_append_left _ hfn, hfp.1⟩,
        ⟨nd, List.mem_append_right _ (by simp), rfl⟩, Or.inl rfl⟩

theorem defBranch_inv (P : ExtractParams) (node : TSNode) (parent : Option TSNode)
    (st : ExtractSt) (hinv : StInv P.fileNodeId st) :
    StInv P.fileNodeId (defBranch P node parent st) := by
  simp only [defBranch]
  repeat' split
  all_goals first
    | exact hinv
    | exact stinv_def_emit P.fileNodeId st _ _ hinv

theorem importBranch_inv (P : ExtractParams) (node : TSNode) (st : ExtractSt)
    (hinv : StInv P.fileNodeId st) :
    StInv P.fileNodeId (importBranch P node st) := by
  simp only [importBranch]
  by_cases h1 : node.kind ∈ P.importTypes
  · rw [if_pos h1]
    by_cases h2 : moduleNameOf node.text = ""
    · rw [if_pos h2]
      exact hinv
    · rw [if_neg h2]
      by_cases h3 : st.nodes.any (fun n => n.id ==
          stableNodeId P.hash P.repoId "<external>" (moduleNameOf node.text) "module") = true
      · rw [if_pos h3]
        refine stinv_edges_append P.fileNodeId st _ _ _ ?_ ?_ (Or.inr (Or.inl rfl)) hinv
        · obtain ⟨n, hn, hp⟩ := hinv.1
          exact ⟨n, hn, hp.1⟩
        · obtain ⟨n, hn, hb⟩ := List.any_eq_true.mp h3
          exact ⟨n, hn, by simpa using hb⟩
      · rw [if_neg h3]
        refine stinv_edges_append P.fileNodeId _ _ _ _ ?_ ?_ (Or.inr (Or.inl rfl))
          (stinv_nodes_append P.fileNodeId st _ hinv)
        · obtain ⟨n, hn, hp⟩ := hinv.1
          exact ⟨n, List.mem_append_left _ hn, hp.1⟩
        · refine ⟨⟨stableNodeId P.hash P.repoId "<external>" (moduleNameOf node.text)
              "module", "module", moduleNameOf node.text, "<external>", ""⟩,
            List.mem_append_right _ ?_, rfl⟩
          simp
  · rw [if_neg h1]
    exact hinv

theorem findEnclosing_sound (locals : List (String × String)) (fid : String)
    (nodes : List FactNode) (hf : ∃ n ∈ nodes, n.id = fid)
    (hl : ∀ p ∈ locals, ∃ n ∈ nodes, n.id = p.2) :
    ∀ ancestors : List TSNode,
      ∃ n ∈ nodes, n.id = findEnclosing locals fid ancestors := by
  intro ancestors
  induction ancestors with
  | nil => simpa [findEnclosing] using hf
  | cons a rest ih =>
      simp only [findEnclosing]
      split
      · rename_i nm hnm
        by_cases hne : nm ≠ ""
        · rw [if_pos hne]
          split
          · rename_i sid hsid
            exact hl _ (mem_of_lookup_eq_some hsid)
          · exact ih
        · rw [if_neg hne]
          exact ih
      · exact ih

theorem callBranch_inv (P : ExtractParams) (node : TSNode)
    (ancestors : List TSNode) (st : ExtractSt)
    (hinv : StInv P.fileNodeId st) :
    StInv P.fileNodeId (callBranch P node ancestors st) := by
  simp only [callBranch]
  split
  · exact hinv
  · rename_i ct hct
    by_cases h1 : node.kind = ct
    · rw [if_pos h1]
      split
      · exact hinv
      · rename_i f hf
        split
        · exact hinv
        · rename_i tgt htgt
          by_cases h2 : findEnclosing st.locals P.fileNodeId ancestors = tgt
          · rw [if_pos h2]
            exact hinv
          · rw [if_neg h2]
            refine stinv_edges_append P.fileNodeId st _ _ _ ?_ ?_
              (Or.inr (Or.inr rfl)) hinv
            · obtain ⟨n, hn, hp⟩ := hinv.1
              exact findEnclosing_sound st.locals P.fileNodeId st.nodes
                ⟨n, hn, hp.1⟩ hinv.2.1 ancestors
            · exact hinv.2.1 _ (mem_of_lookup_eq_some htgt)
    · rw [if_neg h1]
      exact hinv

mutual
/-- The walk preserves the closure invariant. -/
theorem walkNode_inv (P : ExtractParams) (node : TSNode)
    (ancestors : List TSNode) (st : ExtractSt)
    (hinv : StInv P.fileNodeId st) :
    StInv P.fileNodeId (walkNode P node ancestors st) := by
  cases node with
  | mk k t ch =>
      rw [walkNode]
      exact walkChildren_inv P ch (TSNode.mk k t ch :: ancestors) _
        (callBranch_inv P (.mk k t ch) ancestors _
          (importBranch_inv P (.mk k t ch) _
            (defBranch_inv P (.mk k t ch) ancestors.head? st hinv)))
termination_by sizeOf node
decreasing_by
  all_goals simp_wf

/-- The child loop preserves the closure invariant. -/
theorem walkChildren_inv (P : ExtractParams)
    (cs : List (Option String × TSNode)) (ancestors : List TSNode)
    (st : ExtractSt) (hinv : StInv P.fileNodeId st) :
    StInv P.fileNodeId (walkChildren P cs ancestors st) := by
  cases cs with
  | nil =>
      rw [walkChildren]
      exact hinv
  | cons c rest =>
      have hsz : sizeOf c.2 < 1 + sizeOf c + sizeOf rest := by
        rcases c with ⟨tag, child⟩
        simp only [Prod.mk.sizeOf_spec]
        omega
      rw [walkChildren]
      exact walkChildren_inv P rest ancestors _
        (walkNode_inv P c.2 ancestors st hinv)
termination_by sizeOf cs
decreasing_by
  all_goals simp_wf
  all_goals omega
end

/-- The per-file extraction emits only edges whose endpoints are among its
own emitted nodes, with the file node present and kinds in
`{contains, imports, calls}`. -/
theorem extractFacts_closed (hash : String → String) (repoId relPath : String)
    (maxSnippet : Int) (langName text : String) (tree : TSNode) :
    ∀ e ∈ (extractFacts hash repoId relPath maxSnippet langName text tree).2,
      (∃ n ∈ (extractFacts hash repoId relPath maxSnippet langName text tree).1,
        n.id = e.1) ∧
      (∃ n ∈ (extractFacts hash repoId relPath maxSnippet langName text tree).1,
        n.id = e.2.1) ∧
      (e.2.2 = "contains" ∨ e.2.2 = "imports" ∨ e.2.2 = "calls") := by
  intro e he
  simp only [extractFacts] at he ⊢
  have hinv0 : StInv (stableNodeId hash repoId relPath relPath "file")
      { nodes := [⟨stableNodeId hash repoId relPath relPath "file", "file",
          pyBaseName relPath, relPath, truncateSnippet maxSnippet text⟩]
        edges := []
        locals := [] } := by
    refine ⟨⟨_, List.mem_singleton.mpr rfl, rfl, rfl⟩, ?_, ?_⟩
    · intro p hp
      exact absurd hp (List.not_mem_nil p)
    · intro e' he'
      exact absurd he' (List.not_mem_nil e')
  have hinv := walkNode_inv
    { hash := hash
      repoId := repoId
      relPath := relPath
      maxSnippet := maxSnippet
      fileNodeId := stableNodeId hash repoId relPath relPath "file"
      defSpecs := (DEFINITION_NODES.lookup langName).getD []
      importTypes := (IMPORT_NODES.lookup langName).getD []
      callType := CALL_NODES.lookup langName }
    tree [] _ hinv0
  exact hinv.2.2 e he

theorem insertNodes_mono (ns : List FactNode) :
    ∀ (m : List (String × FactNode)) (p : String × FactNode), p ∈ m →
      p ∈ ns.foldl
        (fun m n => if (m.lookup n.id).isSome then m else m ++ [(n.id, n)]) m := by
  induction ns with
  | nil => exact fun m p hp => hp
  | cons n rest ih =>
      intro m p hp
      rw [List.foldl_cons]
      apply ih
      by_cases hs : (m.lookup n.id).isSome
      · rw [if_pos hs]
        exact hp
      · rw [if_neg hs]
        exact List.mem_append_left _ hp

theorem insertNodes_keypair (ns : List FactNode) :
    ∀ m : List (String × FactNode), (∀ p ∈ m, p.1 = p.2.id) →
      ∀ p ∈ ns.foldl
        (fun m n => if (m.lookup n.id).isSome then m else m ++ [(n.id, n)]) m,
        p.1 = p.2.id := by
  induction ns with
  | nil => exact fun m h => h
  | cons n rest ih =>
      intro m h
      rw [List.foldl_cons]
      apply ih
      intro p hp
      by_cases hs : (m.lookup n.id).isSome
      · rw [if_pos hs] at hp
        exact h p hp
      · rw [if_neg hs] at hp
        rcases List.mem_append.mp hp with hm | hnew
        · exact h p hm
        · rw [show p = (n.id, n) by simpa using hnew]

theorem insertNodes_covers (ns : List FactNode) :
    ∀ (m : List (String × FactNode)) (n : FactNode), n ∈ ns →
      ∃ p ∈ ns.foldl
        (fun m n => if (m.lookup n.id).isSome then m else m ++ [(n.id, n)]) m,
        p.1 = n.id := by
  induction ns with
  | nil =>
      intro m n hn
      exact absurd hn (List.not_mem_nil n)
  | cons a rest ih =>
      intro m n hn
      rw [List.foldl_cons]
      rcases List.mem_cons.mp hn with rfl | hmem
      · by_cases hs : (m.lookup n.id).isSome
        · rw [if_pos hs]
          obtain ⟨v, hv⟩ := Option.isSome_iff_exists.mp hs
          exact ⟨(n.id, v), insertNodes_mono rest m _ (mem_of_lookup_eq_some hv), rfl⟩
        · rw [if_neg hs]
          exact ⟨(n.id, n),
            insertNodes_mono rest _ _ (List.mem_append_right _ (by simp)), rfl⟩
      · exact ih _ n hmem

theorem buildStep_closed (hash : String → String) (repoId : String)
    (maxSnippet : Int) (acc : List (String × FactNode) × List (String × String × String))
    (fl : SourceFile × String)
    (h1 : ∀ p ∈ acc.1, p.1 = p.2.id)
    (h2 : ∀ e ∈ acc.2, (∃ p ∈ acc.1, p.1 = e.1) ∧ (∃ p ∈ acc.1, p.1 = e.2.1) ∧
      (e.2.2 = "contains" ∨ e.2.2 = "imports" ∨ e.2.2 = "calls")) :
    (∀ p ∈ (buildStep hash repoId maxSnippet acc fl).1, p.1 = p.2.id) ∧
    (∀ e ∈ (buildStep hash repoId maxSnippet acc fl).2,
      (∃ p ∈ (buildStep hash repoId maxSnippet acc fl).1, p.1 = e.1) ∧
      (∃ p ∈ (buildStep hash repoId maxSnippet acc fl).1, p.1 = e.2.1) ∧
      (e.2.2 = "contains" ∨ e.2.2 = "imports" ∨ e.2.2 = "calls")) := by
  simp only [buildStep]
  by_cases hro : fl.1.readOk = true
  · rw [if_pos hro]
    constructor
    · intro p hp
      exact insertNodes_keypair _ _ h1 p hp
    · intro e he
      rcases List.mem_append.mp he with hold | hnew
      · obtain ⟨⟨p1, hp1, k1⟩, ⟨p2, hp2, k2⟩, k3⟩ := h2 e hold
        exact ⟨⟨p1, insertNodes_mono _ _ _ hp1, k1⟩,
          ⟨p2, insertNodes_mono _ _ _ hp2, k2⟩, k3⟩
      · obtain ⟨⟨n1, hn1, k1⟩, ⟨n2, hn2, k2⟩, k3⟩ :=
          extractFacts_closed hash repoId fl.1.relPath maxSnippet fl.2 fl.1.text
            fl.1.tree e hnew
        obtain ⟨p1, hp1mem, hp1key⟩ := insertNodes_covers _ _ n1 hn1
        obtain ⟨p2, hp2mem, hp2key⟩ := insertNodes_covers _ _ n2 hn2
        exact ⟨⟨p1, hp1mem, by rw [hp1key, k1]⟩,
          ⟨p2, hp2mem, by rw [hp2key, k2]⟩, k3⟩
  · rw [if_neg hro]
    exact ⟨h1, h2⟩

theorem build_fold_closed (hash : String → String) (repoId : String)
    (maxSnippet : Int) (fls : List (SourceFile × String)) :
    ∀ acc : List (String × FactNode) × List (String × String × String),
      (∀ p ∈ acc.1, p.1 = p.2.id) →
      (∀ e ∈ acc.2, (∃ p ∈ acc.1, p.1 = e.1) ∧ (∃ p ∈ acc.1, p.1 = e.2.1) ∧
        (e.2.2 = "contains" ∨ e.2.2 = "imports" ∨ e.2.2 = "calls")) →
      (∀ p ∈ (fls.foldl (buildStep hash repoId maxSnippet) acc).1, p.1 = p.2.id) ∧
      (∀ e ∈ (fls.foldl (buildStep hash repoId maxSnippet) acc).2,
        (∃ p ∈ (fls.foldl (buildStep hash repoId maxSnippet) acc).1, p.1 = e.1) ∧
        (∃ p ∈ (fls.foldl (buildStep hash repoId maxSnippet) acc).1, p.1 = e.2.1) ∧
        (e.2.2 = "contains" ∨ e.2.2 = "imports" ∨ e.2.2 = "calls")) := by
  induction fls with
  | nil => exact fun acc hA hB => ⟨hA, hB⟩
  | cons fl rest ih =>
      intro acc hA hB
      rw [List.foldl_cons]
      have hstep := buildStep_closed hash repoId maxSnippet acc fl hA hB
      exact ih _ hstep.1 hstep.2

/-- C9: every edge of the produced `graph_facts` document has both endpoints
among the document's node ids, carries one of the kinds
`contains`/`imports`/`calls`, and the edge list contains no duplicates. -/
theorem claim_C9 (hash : String → String) (repoId : String) (maxSnippet : Int)
    (files : List SourceFile) :
    (∀ e ∈ (buildGraphFacts hash repoId maxSnippet files).edges,
      (∃ n ∈ (buildGraphFacts hash repoId maxSnippet files).nodes, n.id = e.source) ∧
      (∃ n ∈ (buildGraphFacts hash repoId maxSnippet files).nodes, n.id = e.target) ∧
      (e.type = "contains" ∨ e.type = "imports" ∨ e.type = "calls")) ∧
    (buildGraphFacts hash repoId maxSnippet files).edges.Nodup := by
  have hfold := build_fold_closed hash repoId maxSnippet
    (iterSourceFiles files) ([], [])
    (fun p hp => absurd hp (List.not_mem_nil p))
    (fun e he => absurd he (List.not_mem_nil e))
  constructor
  · intro e he
    simp only [buildGraphFacts] at he ⊢
    obtain ⟨tr, htr, rfl⟩ := List.mem_map.mp he
    have htr1 : tr ∈ ((iterSourceFiles files).foldl
        (buildStep hash repoId maxSnippet) ([], [])).2.dedup :=
      (List.perm_insertionSort _ _).mem_iff.mp htr
    have htr2 := List.mem_dedup.mp htr1
    obtain ⟨⟨p1, hp1, k1⟩, ⟨p2, hp2, k2⟩, k3⟩ := hfold.2 tr htr2
    refine ⟨⟨p1.2, ?_, ?_⟩, ⟨p2.2, ?_, ?_⟩, k3⟩
    · exact (List.perm_insertionSort _ _).mem_iff.mpr
        (List.mem_map_of_mem Prod.snd hp1)
    · rw [← hfold.1 p1 hp1]
      exact k1
    · exact (List.perm_insertionSort _ _).mem_iff.mpr
        (List.mem_map_of_mem Prod.snd hp2)
    · rw [← hfold.1 p2 hp2]
      exact k2
  · simp only [buildGraphFacts]
    apply List.Nodup.map
    · intro a b hab
      obtain ⟨a1, a2, a3⟩ := a
      obtain ⟨b1, b2, b3⟩ := b
      simp only [FactEdge.mk.injEq] at hab
      simp [hab.1, hab.2.1, hab.2.2]
    · exact ((List.perm_insertionSort _ _).nodup_iff).mpr (List.nodup_dedup _)

/-- Witness for C9: the `imports` edge of a one-import file has both
endpoints among the emitted nodes. -/
theorem claim_C9_witness :
    (∃ n ∈ (buildGraphFacts (fun s => s) "r" 2000 [wFile]).nodes,
      n.id = (FactEdge.mk "r|a.py|a.py|file" "r|<external>|os|module"
        "imports").source) ∧
    (∃ n ∈ (buildGraphFacts (fun s => s) "r" 2000 [wFile]).nodes,
      n.id = (FactEdge.mk "r|a.py|a.py|file" "r|<external>|os|module"
        "imports").target) ∧
    ((FactEdge.mk "r|a.py|a.py|file" "r|<external>|os|module" "imports").type =
        "contains" ∨
      (FactEdge.mk "r|a.py|a.py|file" "r|<external>|os|module" "imports").type =
        "imports" ∨
      (FactEdge.mk "r|a.py|a.py|file" "r|<external>|os|module" "imports").type =
        "calls") :=
  (claim_C9 (fun s => s) "r" 2000 [wFile]).1
    (FactEdge.mk "r|a.py|a.py|file" "r|<external>|os|module" "imports")
    (by simp [buildGraphFacts, iterSourceFiles, sortByKey, buildStep, extractFacts,
        walkNode, walkChildren, defBranch, importBranch, callBranch, moduleNameOf,
        EXT_TO_LANG, DEFINITION_NODES, IMPORT_NODES, CALL_NODES, wFile, wTree,
        List.insertionSort, List.filterMap, pyToLower, findSpec, stableNodeId,
        List.lookup]
        decide)

/-- Two sorted lists with the same elements and duplicate-free keys are
equal. -/
theorem eq_of_perm_sorted_nodup_keys {α : Type} {β : Type} [LinearOrder β]
    (key : α → β) :
    ∀ (l₁ l₂ : List α), List.Perm l₁ l₂ →
      l₁.Sorted (keyLe key) → l₂.Sorted (keyLe key) →
      (l₁.map key).Nodup → l₁ = l₂ := by
  intro l₁
  induction l₁ with
  | nil =>
      intro l₂ hp _ _ _
      exact (hp.symm.eq_nil).symm
  | cons a t ih =>
      intro l₂ hp hs1 hs2 hnd
      cases l₂ with
      | nil => exact absurd hp.eq_nil (by simp)
      | cons b t₂ =>
          have hab : a = b := by
            have hamem : a ∈ b :: t₂ := hp.mem_iff.mp (List.mem_cons_self a t)
            have hbmem : b ∈ a :: t := hp.mem_iff.mpr (List.mem_cons_self b t₂)
            rcases List.mem_cons.mp hamem with h | hat2
            · exact h
            rcases List.mem_cons.mp hbmem with h | hbt
            · exact h.symm
            have h1 : key a ≤ key b := (List.sorted_cons.mp hs1).1 b hbt
            have h2 : key b ≤ key a := (List.sorted_cons.mp hs2).1 a hat2
            have hkey : key a = key b := le_antisymm h1 h2
            have hnd2 : (key a :: t.map key).Nodup := by simpa using hnd
            exact absurd (by rw [hkey]; exact List.mem_map_of_mem key hbt)
              (List.nodup_cons.mp hnd2).1
          subst hab
          have hnd2 : (key a :: t.map key).Nodup := by simpa using hnd
          have ht : t = t₂ := ih t₂ hp.cons_inv (List.sorted_cons.mp hs1).2
            (List.sorted_cons.mp hs2).2 (List.nodup_cons.mp hnd2).2
          rw [ht]

/-- `sorted(..., key=...)` is invariant under permutation of a
duplicate-free-keyed input. -/
theorem sortByKey_perm_eq {α β : Type} [LinearOrder β] (key : α → β)
    (l₁ l₂ : List α) (hp : List.Perm l₁ l₂) (hnd : (l₁.map key).Nodup) :
    sortByKey key l₁ = sortByKey key l₂ := by
  apply eq_of_perm_sorted_nodup_keys key
  · exact (List.perm_insertionSort _ l₁).trans
      (hp.trans (List.perm_insertionSort _ l₂).symm)
  · exact List.sorted_insertionSort _ l₁
  · exact List.sorted_insertionSort _ l₂
  · exact (((List.perm_insertionSort (keyLe key) l₁).map key).nodup_iff).mpr hnd

theorem iter_keys_eq (l : List SourceFile) :
    ((l.filterMap (fun f =>
        (EXT_TO_LANG.lookup (pyToLower f.ext)).map (fun lg => (f, lg)))).map
      (fun p => p.1.relPath)) =
      (l.filter (fun f => (EXT_TO_LANG.lookup (pyToLower f.ext)).isSome)).map
        SourceFile.relPath := by
  induction l with
  | nil => rfl
  | cons f rest ih =>
      cases hlk : EXT_TO_LANG.lookup (pyToLower f.ext) with
      | none => simp [List.filterMap_cons, List.filter_cons, hlk, ih]
      | some lg => simp [List.filterMap_cons, List.filter_cons, hlk, ih]

/-- The sorted source-file listing is invariant under enumeration order for
distinct paths. -/
theorem iterSourceFiles_perm_eq (l₁ l₂ : List SourceFile)
    (hp : List.Perm l₁ l₂) (hnd : (l₁.map SourceFile.relPath).Nodup) :
    iterSourceFiles l₁ = iterSourceFiles l₂ := by
  unfold iterSourceFiles
  apply sortByKey_perm_eq
  · exact hp.filterMap _
  · rw [iter_keys_eq]
    exact ((List.filter_sublist l₁).map SourceFile.relPath).nodup hnd

theorem lookup_isSome_of_mem_keys {α β : Type} [BEq α] [LawfulBEq α]
    (m : List (α × β)) (k : α) (hmem : k ∈ m.map Prod.fst) :
    (m.lookup k).isSome := by
  induction m with
  | nil => simp at hmem
  | cons a rest ih =>
      obtain ⟨ka, va⟩ := a
      cases hb : (k == ka) with
      | true => simp [List.lookup, hb]
      | false =>
          simp only [List.lookup, hb]
          apply ih
          rcases (by simpa using hmem : k = ka ∨ k ∈ rest.map Prod.fst) with rfl | hk
          · simp at hb
          · exact hk

theorem insertNodes_keys_nodup (ns : List FactNode) :
    ∀ m : List (String × FactNode), (m.map Prod.fst).Nodup →
      ((ns.foldl
        (fun m n => if (m.lookup n.id).isSome then m else m ++ [(n.id, n)])
        m).map Prod.fst).Nodup := by
  induction ns with
  | nil => exact fun m h => h
  | cons n rest ih =>
      intro m h
      rw [List.foldl_cons]
      apply ih
      by_cases hs : (m.lookup n.id).isSome
      · rw [if_pos hs]
        exact h
      · rw [if_neg hs]
        rw [List.map_append]
        have hnm : n.id ∉ m.map Prod.fst := fun hmem =>
          hs (lookup_isSome_of_mem_keys m n.id hmem)
        simp [List.nodup_append, h, hnm]

/-- C3: on byte-identical inputs with distinct paths, `build_graph_facts` is
invariant under the directory-enumeration order (and a second run trivially
reproduces the same value), so the serialized `graph_facts.json` is
byte-identical; nodes come out deduplicated by id and sorted by id, edges
sorted by `(source, target, kind)`.  File modification times do not occur in
the computation at all. -/
theorem claim_C3 (hash : String → String) (repoId : String) (maxSnippet : Int)
    (l₁ l₂ : List SourceFile) (hp : List.Perm l₁ l₂)
    (hnd : (l₁.map SourceFile.relPath).Nodup) :
    buildGraphFacts hash repoId maxSnippet l₁ =
      buildGraphFacts hash repoId maxSnippet l₂ ∧
    renderGraphFacts (buildGraphFacts hash repoId maxSnippet l₁) =
      renderGraphFacts (buildGraphFacts hash repoId maxSnippet l₂) ∧
    (buildGraphFacts hash repoId maxSnippet l₁).nodes.Sorted (keyLe FactNode.id) ∧
    ((buildGraphFacts hash repoId maxSnippet l₁).nodes.map FactNode.id).Nodup ∧
    (buildGraphFacts hash repoId maxSnippet l₁).edges.Sorted (keyLe factEdgeKey) := by
  have hiter := iterSourceFiles_perm_eq l₁ l₂ hp hnd
  have heq : buildGraphFacts hash repoId maxSnippet l₁ =
      buildGraphFacts hash repoId maxSnippet l₂ := by
    simp only [buildGraphFacts, hiter]
  refine ⟨heq, by rw [heq], ?_, ?_, ?_⟩
  · exact List.sorted_insertionSort _ _
  · -- node ids are the accumulator keys, which are duplicate-free
    have hfold := build_fold_closed hash repoId maxSnippet
      (iterSourceFiles l₁) ([], [])
      (fun p hp0 => absurd hp0 (List.not_mem_nil p))
      (fun e he0 => absurd he0 (List.not_mem_nil e))
    have hkeys : ∀ fls : List (SourceFile × String),
        (((fls.foldl (buildStep hash repoId maxSnippet) ([], [])).1).map
          Prod.fst).Nodup := by
      intro fls
      induction fls using List.reverseRecOn with
      | nil => simp
      | append_singleton rest fl ih =>
          rw [List.foldl_append, List.foldl_cons, List.foldl_nil]
          simp only [buildStep]
          by_cases hro : fl.1.readOk = true
          · rw [if_pos hro]
            exact insertNodes_keys_nodup _ _ ih
          · rw [if_neg hro]
            exact ih
    have hknd := hkeys (iterSourceFiles l₁)
    simp only [buildGraphFacts]
    have hperm : List.Perm
        ((sortByKey FactNode.id
          (((iterSourceFiles l₁).foldl (buildStep hash repoId maxSnippet)
            ([], [])).1.map Prod.snd)).map FactNode.id)
        ((((iterSourceFiles l₁).foldl (buildStep hash repoId maxSnippet)
          ([], [])).1.map Prod.snd).map FactNode.id) :=
      (List.perm_insertionSort _ _).map FactNode.id
    refine hperm.nodup_iff.mpr ?_
    rw [List.map_map]
    have hcongr : (((iterSourceFiles l₁).foldl (buildStep hash repoId maxSnippet)
        ([], [])).1).map (FactNode.id ∘ Prod.snd) =
        (((iterSourceFiles l₁).foldl (buildStep hash repoId maxSnippet)
          ([], [])).1).map Prod.fst := by
      apply List.map_congr_left
      intro p hp0
      exact ((build_fold_closed hash repoId maxSnippet (iterSourceFiles l₁)
        ([], []) (fun q hq => absurd hq (List.not_mem_nil q))
        (fun e he0 => absurd he0 (List.not_mem_nil e))).1 p hp0).symm
    rw [hcongr]
    exact hknd
  · simp only [buildGraphFacts]
    have hsorted := List.sorted_insertionSort (keyLe edgeKey)
      (((iterSourceFiles l₁).foldl (buildStep hash repoId maxSnippet)
        ([], [])).2.dedup)
    unfold List.Sorted at hsorted ⊢
    rw [List.pairwise_map]
    exact hsorted

/-- Witness for C3: swapping the two input files leaves the facts document
and its serialization unchanged. -/
theorem claim_C3_witness :
    buildGraphFacts (fun s => s) "r" 2000 [wFile, wFile2] =
      buildGraphFacts (fun s => s) "r" 2000 [wFile2, wFile] ∧
    renderGraphFacts (buildGraphFacts (fun s => s) "r" 2000 [wFile, wFile2]) =
      renderGraphFacts (buildGraphFacts (fun s => s) "r" 2000 [wFile2, wFile]) ∧
    (buildGraphFacts (fun s => s) "r" 2000 [wFile, wFile2]).nodes.Sorted
      (keyLe FactNode.id) ∧
    ((buildGraphFacts (fun s => s) "r" 2000 [wFile, wFile2]).nodes.map
      FactNode.id).Nodup ∧
    (buildGraphFacts (fun s => s) "r" 2000 [wFile, wFile2]).edges.Sorted
      (keyLe factEdgeKey) :=
  claim_C3 (fun s => s) "r" 2000 [wFile, wFile2] [wFile2, wFile]
    (List.Perm.swap wFile2 wFile []) (by decide)

end Graphwise
